import Mathlib

/-!
Verification development for the frontend scanner pipeline.

Shallow embedding of the scanning-and-indexing pipeline:
Python strings are modelled as `List Char` (ASCII model of the character
predicates), dicts as association lists with Python merge/lookup semantics,
and machine floats that the code only ever fills with integral values as
exact `Int`s.  Fallible library calls are modelled by explicit failure
parameters mirroring the try/except structure of the source.
-/

namespace FrontendScanner

/-- Python str.isspace for the ASCII whitespace characters; `strip()` truthiness
is modelled through this predicate. -/
def pyIsSpace (c : Char) : Bool :=
  c = ' ' || c = '\t' || c = '\n' || c = '\r' || c = '\x0b' || c = '\x0c'

/-- Truthiness of `s.strip()` is `¬ blank s`: a string is blank when every
character is whitespace (this includes the empty string). -/
def blank (s : List Char) : Bool :=
  s.all pyIsSpace

/-- Helper for `pySplitlines`: accumulate the current line (reversed) while
scanning; a newline emits the accumulated line, and a non-empty trailing
accumulator is emitted at the end (Python splitlines drops no content but
yields no trailing empty line for a string ending in a newline). -/
def pslAux (acc : List Char) : List Char → List (List Char)
  | [] => if acc = [] then [] else [acc.reverse]
  | c :: rest => if c = '\n' then acc.reverse :: pslAux [] rest else pslAux (c :: acc) rest

/-- Python `str.splitlines()` restricted to the newline separator. -/
def pySplitlines (s : List Char) : List (List Char) :=
  pslAux [] s

/-- Python `"\n".join(lines)`. -/
def joinLines : List (List Char) → List Char
  | [] => []
  | [l] => l
  | l :: rest => l ++ '\n' :: joinLines rest

/-- Metadata values: the dynamically-typed values the pipeline stores in its
metadata and provenance dicts. -/
inductive MVal where
  | str (s : String)
  | boolv (b : Bool)
  | intv (i : Int)
  | strList (l : List String)
  | noneV
deriving DecidableEq, Repr

/-- Python dict modelled as an association list in insertion order. -/
abbrev PyDict := List (String × MVal)

/-- Python dict-merge update `{**m, k: v}`: an existing key keeps its position
and gets the new value, a fresh key is appended. -/
def dictInsert (k : String) (v : MVal) (m : PyDict) : PyDict :=
  if (m.lookup k).isSome then
    m.map (fun p => if p.1 = k then (k, v) else p)
  else
    m ++ [(k, v)]

/-- Python `d.get(k)` with the `None` default. -/
def pyGet (m : PyDict) (k : String) : MVal :=
  (m.lookup k).getD .noneV


/-! ## MetadataStore (src/frontend_scanner/storage/metadata_store.py)

The sqlite files table is modelled by the association of `path` to its
`sha256_hash` column, the only column `get_changed_files` consults; the
`path` column is UNIQUE and `INSERT OR REPLACE` keeps one row per path. -/

namespace MetadataStore

/-- The files table restricted to (path, sha256_hash); one row per path. -/
abbrev FilesTable := List (String × String)

/-- MetadataStore.get_file, restricted to the sha256_hash column the diff reads. -/
def get_file (table : FilesTable) (path : String) : Option String :=
  table.lookup path

/-- MetadataStore.get_changed_files: a path is collected when it has no stored
row or its stored digest differs from the current digest.  The function
returns only this changed list; no deleted-path set is computed. -/
def get_changed_files (table : FilesTable) (current_hashes : List (String × String)) :
    List String :=
  (current_hashes.filter fun ph =>
    match get_file table ph.1 with
    | none => true
    | some h => h != ph.2).map Prod.fst

end MetadataStore

/-! ## Vector stores (src/frontend_scanner/storage/vector_store.py) -/

namespace VectorStore

/-- One element of FAISSVectorStore.chunk_data. -/
structure FaissEntry where
  chunk_id : String
  content : List Char
  metadata : PyDict
  provenance : PyDict
deriving DecidableEq, Repr

/-- FAISSVectorStore state: a flat L2 index of fixed dimension plus the
parallel chunk_data list.  float32 vectors that the pipeline fills with
integral values are modelled as exact `Int` lists. -/
structure FAISSVectorStore where
  dimension : Nat
  vectors : List (List Int)
  chunk_data : List FaissEntry
deriving DecidableEq, Repr

/-- FAISSVectorStore.__init__ with config.embedding.dimensions. -/
def FAISSVectorStore.init (dim : Nat) : FAISSVectorStore :=
  ⟨dim, [], []⟩

/-- FAISSVectorStore.add: `index.add` raises when the vector length differs
from the index dimension; the surrounding try/except catches and logs the
error, so the store is returned unchanged in that case (the chunk_data
append sits inside the same try and is skipped too). -/
def FAISSVectorStore.add (st : FAISSVectorStore) (chunk_id : String)
    (embedding : List Int) (content : List Char)
    (metadata provenance : PyDict) : FAISSVectorStore :=
  if embedding.length = st.dimension then
    { st with
        vectors := st.vectors ++ [embedding],
        chunk_data := st.chunk_data ++ [⟨chunk_id, content, metadata, provenance⟩] }
  else
    st

/-- Squared L2 distance, the metric of faiss.IndexFlatL2. -/
def l2sq (u v : List Int) : Int :=
  (List.zipWith (fun a b => (a - b) * (a - b)) u v).sum

/-- Stable insertion (ties keep insertion order) used to model the ascending
distance order of IndexFlatL2.search. -/
def insertByDist (x : Nat × Int) : List (Nat × Int) → List (Nat × Int)
  | [] => [x]
  | y :: rest => if x.2 < y.2 then x :: y :: rest else y :: insertByDist x rest

/-- Sort (index, distance) pairs by ascending distance, ties by index order. -/
def sortByDist (l : List (Nat × Int)) : List (Nat × Int) :=
  l.foldl (fun acc x => insertByDist x acc) []

/-- index.search over the flat store: the k nearest stored vectors as
(index, squared distance) pairs in ascending distance order. -/
def FAISSVectorStore.search (st : FAISSVectorStore) (q : List Int) (k : Nat) :
    List (Nat × Int) :=
  (sortByDist ((st.vectors.map (l2sq q)).enum)).take k

/-- The exact-match conjunction the FAISS query applies to each candidate:
`result.get("metadata", {}).get(key) != value` must fail for no filter key. -/
def matchesFilters (filters : PyDict) (metadata : PyDict) : Bool :=
  filters.all fun kv => pyGet metadata kv.1 == kv.2

/-- One element of the list FAISSVectorStore.query returns. -/
structure QueryResult where
  chunk_id : String
  content : List Char
  metadata : PyDict
  provenance : PyDict
  distance : Int
deriving DecidableEq, Repr

/-- FAISSVectorStore.query: search the index for the `min k len(chunk_data)`
nearest vectors, then walk the ranked hits applying the metadata filters.
A query vector of the wrong length makes `index.search` raise; the
try/except converts that to an empty result list. -/
def FAISSVectorStore.query (st : FAISSVectorStore) (q : List Int) (k : Nat)
    (filters : PyDict) : List QueryResult :=
  if q.length ≠ st.dimension then
    []
  else
    (st.search q (min k st.chunk_data.length)).filterMap fun id_dist =>
      match st.chunk_data.get? id_dist.1 with
      | none => none
      | some e =>
        if filters.isEmpty then
          some ⟨e.chunk_id, e.content, e.metadata, e.provenance, id_dist.2⟩
        else if matchesFilters filters e.metadata then
          some ⟨e.chunk_id, e.content, e.metadata, e.provenance, id_dist.2⟩
        else
          none

/-- ChromaVectorStore.query: the backend call `collection.query` is external;
its outcome is a parameter.  The wrapper converts a raised backend error to
the empty list (the except branch). -/
def chromaQuery (backendOutcome : Except String (List QueryResult)) :
    List QueryResult :=
  match backendOutcome with
  | .error _ => []
  | .ok rs => rs

end VectorStore

/-! ## Chunker (src/frontend_scanner/agents/chunker.py) -/

namespace Chunker

/-- CodeChunk (the pydantic model of chunker.py). -/
structure CodeChunk where
  chunk_id : String
  file_path : String
  content : List Char
  start_line : Nat
  end_line : Nat
  token_count : Nat
  chunk_type : String
  language : String
  metadata : PyDict
  provenance : PyDict
deriving DecidableEq, Repr

/-- A parsed component, restricted to the fields the chunker reads. -/
structure Component where
  name : String
  type : String
  hooks : List String
  start_line : Int
  end_line : Int
deriving DecidableEq, Repr

/-- A parsed file, restricted to the fields the chunker reads. -/
structure ParsedFile where
  file_path : String
  language : String
  framework : Option String
  components : List Component
deriving DecidableEq, Repr

/-- ChunkingConfig (config.py). -/
structure ChunkingConfig where
  chunk_size : Nat
  chunk_overlap : Nat
  use_ast_chunking : Bool
  min_chunk_size : Nat
deriving DecidableEq, Repr

/-- ChunkerAgent.count_tokens: the loaded tiktoken encoding when present,
else the deterministic length-div-4 fallback. -/
def count_tokens (encoding : Option (List Char → Nat)) (text : List Char) : Nat :=
  match encoding with
  | some enc => enc text
  | none => text.length / 4

/-- An Optional[str] framework rendered as a metadata value. -/
def fwVal : Option String → MVal
  | some s => .str s
  | none => .noneV

/-- Loop of _get_overlap_lines: walk the previous chunk backwards, prepending
lines while the accumulated token count stays within the overlap budget. -/
def overlapGo (count : List Char → Nat) (overlap_tokens : Nat) :
    List (List Char) → Nat → List (List Char) → List (List Char)
  | [], _, acc => acc
  | l :: rest, tokens, acc =>
    if tokens + count l > overlap_tokens then acc
    else overlapGo count overlap_tokens rest (tokens + count l) (l :: acc)

/-- ChunkerAgent._get_overlap_lines. -/
def get_overlap_lines (count : List Char → Nat) (overlap_tokens : Nat)
    (lines : List (List Char)) : List (List Char) :=
  overlapGo count overlap_tokens lines.reverse 0 []

/-- The chunk record _chunk_by_tokens emits. -/
def mkTextChunk (pf : ParsedFile) (idx : Nat) (content : List Char)
    (startLn endLn tok : Nat) : CodeChunk :=
  { chunk_id := pf.file_path ++ ":token:" ++ Nat.repr idx,
    file_path := pf.file_path,
    content := content,
    start_line := startLn, end_line := endLn, token_count := tok,
    chunk_type := "text", language := pf.language,
    metadata := [("framework", fwVal pf.framework)],
    provenance := [("file", .str pf.file_path),
                   ("lines", .str (Nat.repr startLn ++ "-" ++ Nat.repr endLn))] }

/-- The loop of ChunkerAgent._chunk_by_tokens.  Arguments after the line list:
current line index, accumulated chunk lines, running token estimate, chunk
start line, next chunk index. -/
def tokenLoop (count : List Char → Nat) (chunk_size overlap : Nat)
    (pf : ParsedFile) :
    List (List Char) → Nat → List (List Char) → Nat → Nat → Nat → List CodeChunk
  | [], i, cur, curTok, startLn, idx =>
    if cur ≠ [] ∧ blank (joinLines cur) = false then
      [mkTextChunk pf idx (joinLines cur) startLn i curTok]
    else []
  | line :: rest, i, cur, curTok, startLn, idx =>
    if curTok + count line > chunk_size ∧ cur ≠ [] then
      (if blank (joinLines cur) = false then
        [mkTextChunk pf idx (joinLines cur) startLn i curTok]
      else []) ++
      tokenLoop count chunk_size overlap pf rest (i + 1)
        (get_overlap_lines count overlap cur ++ [line])
        (count (joinLines (get_overlap_lines count overlap cur ++ [line])))
        (i - (get_overlap_lines count overlap cur).length) (idx + 1)
    else
      tokenLoop count chunk_size overlap pf rest (i + 1)
        (cur ++ [line]) (curTok + count line) startLn idx

/-- ChunkerAgent._chunk_by_tokens. -/
def chunk_by_tokens (count : List Char → Nat) (cfg : ChunkingConfig)
    (pf : ParsedFile) (content : List Char) : List CodeChunk :=
  let lines := pySplitlines content
  if lines = [] then []
  else tokenLoop count cfg.chunk_size cfg.chunk_overlap pf lines 0 [] 0 0 0

/-- The chunk record _split_large_chunk emits (chunk id indexed by the number
of chunks already emitted by this split). -/
def mkSplitChunk (fp : String) (lang : String) (comp : Component) (nchunks : Nat)
    (content : List Char) (startLn endLn tok : Nat) : CodeChunk :=
  { chunk_id := fp ++ ":component-split:" ++ Nat.repr nchunks,
    file_path := fp,
    content := content,
    start_line := startLn, end_line := endLn, token_count := tok,
    chunk_type := "component", language := lang,
    metadata := [("component_name", .str comp.name), ("split", .boolv true)],
    provenance := [("file", .str fp),
                   ("lines", .str (Nat.repr startLn ++ "-" ++ Nat.repr endLn))] }

/-- The loop of ChunkerAgent._split_large_chunk over the component text's own
lines; `base` is the component chunk's start line in the file.  State after
the line list: current index, accumulated lines, running tokens, chunk start
(relative to the component), number of chunks emitted. -/
def splitLoop (count : List Char → Nat) (chunk_size : Nat) (fp : String)
    (base : Nat) (comp : Component) (lang : String) :
    List (List Char) → Nat → List (List Char) → Nat → Nat → Nat → List CodeChunk
  | [], i, cur, curTok, chunkStart, nchunks =>
    if cur ≠ [] ∧ blank (joinLines cur) = false then
      [mkSplitChunk fp lang comp nchunks (joinLines cur)
        (base + chunkStart) (base + i) curTok]
    else []
  | line :: rest, i, cur, curTok, chunkStart, nchunks =>
    if curTok + count line > chunk_size ∧ cur ≠ [] then
      if blank (joinLines cur) = false then
        mkSplitChunk fp lang comp nchunks (joinLines cur)
            (base + chunkStart) (base + i) curTok ::
          splitLoop count chunk_size fp base comp lang rest (i + 1)
            [line] (count line) i (nchunks + 1)
      else
        splitLoop count chunk_size fp base comp lang rest (i + 1)
          [line] (count line) i nchunks
    else
      splitLoop count chunk_size fp base comp lang rest (i + 1)
        (cur ++ [line]) (curTok + count line) chunkStart nchunks

/-- ChunkerAgent._split_large_chunk. -/
def split_large_chunk (count : List Char → Nat) (chunk_size : Nat)
    (content : List Char) (fp : String) (start_line : Nat) (comp : Component)
    (lang : String) : List CodeChunk :=
  splitLoop count chunk_size fp start_line comp lang (pySplitlines content) 0 [] 0 0 0

/-- The chunk record _chunk_by_components emits for a within-budget component. -/
def mkComponentChunk (pf : ParsedFile) (i : Nat) (comp : Component)
    (content : List Char) (startLn endLn tok : Nat) : CodeChunk :=
  { chunk_id := pf.file_path ++ ":component:" ++ Nat.repr i,
    file_path := pf.file_path,
    content := content,
    start_line := startLn, end_line := endLn, token_count := tok,
    chunk_type := "component", language := pf.language,
    metadata := [("component_name", .str comp.name),
                 ("component_type", .str comp.type),
                 ("hooks", .strList comp.hooks),
                 ("framework", fwVal pf.framework)],
    provenance := [("file", .str pf.file_path),
                   ("lines", .str (Nat.repr startLn ++ "-" ++ Nat.repr endLn)),
                   ("framework", fwVal pf.framework)] }

/-- The body of the _chunk_by_components loop for one enumerated component.
Clamping mirrors max(0, start_line) and min(len(lines), end_line + 1); an
empty clamped span or blank text skips the component; an over-budget
component is recursively split. -/
def componentChunks (count : List Char → Nat) (cfg : ChunkingConfig)
    (pf : ParsedFile) (lines : List (List Char)) (i : Nat) (comp : Component) :
    List CodeChunk :=
  let startI : Int := max 0 comp.start_line
  let endI : Int := min (lines.length : Int) (comp.end_line + 1)
  if startI ≥ endI then []
  else
    let s := startI.toNat
    let e := endI.toNat
    let chunk_content := joinLines ((lines.drop s).take (e - s))
    if blank chunk_content then []
    else if count chunk_content > cfg.chunk_size then
      split_large_chunk count cfg.chunk_size chunk_content pf.file_path s
        comp pf.language
    else
      [mkComponentChunk pf i comp chunk_content s e (count chunk_content)]

/-- ChunkerAgent._chunk_by_components: the per-component chunks in component
order (each component is guarded separately in the source, failures being
logged and skipped; the pure model has no failing component). -/
def chunk_by_components (count : List Char → Nat) (cfg : ChunkingConfig)
    (pf : ParsedFile) (content : List Char) : List CodeChunk :=
  let lines := pySplitlines content
  if lines = [] then []
  else pf.components.enum.flatMap fun ic =>
    componentChunks count cfg pf lines ic.1 ic.2

/-- One chunk of ChunkerAgent._chunk_by_lines (fixed 50-line blocks). -/
def mkLinesChunk (pf : ParsedFile) (i : Nat) (content : List Char)
    (endLn tok : Nat) : CodeChunk :=
  { chunk_id := pf.file_path ++ ":lines:" ++ Nat.repr i,
    file_path := pf.file_path,
    content := content,
    start_line := i, end_line := endLn, token_count := tok,
    chunk_type := "text", language := pf.language,
    metadata := [],
    provenance := [("file", .str pf.file_path),
                   ("lines", .str (Nat.repr i ++ "-" ++ Nat.repr endLn))] }

/-- The loop of ChunkerAgent._chunk_by_lines over the block start indices. -/
def linesLoop (count : List Char → Nat) (pf : ParsedFile)
    (lines : List (List Char)) : List Nat → List CodeChunk
  | [] => []
  | i :: rest =>
    let chunk_lines := (lines.drop i).take 50
    let cc := joinLines chunk_lines
    (if blank cc then [] else
      [mkLinesChunk pf i cc (i + chunk_lines.length) (count cc)]) ++
      linesLoop count pf lines rest

/-- ChunkerAgent._chunk_by_lines: range(0, len(lines), 50). -/
def chunk_by_lines (count : List Char → Nat) (pf : ParsedFile)
    (content : List Char) : List CodeChunk :=
  let lines := pySplitlines content
  linesLoop count pf lines (List.range' 0 ((lines.length + 49) / 50) 50)

/-- ChunkerAgent.chunk: blank input yields no chunks; AST chunking is used when
enabled and components exist, else token chunking.  (The except branch that
falls back to _chunk_by_lines cannot trigger in this pure model.) -/
def chunk (count : List Char → Nat) (cfg : ChunkingConfig) (pf : ParsedFile)
    (content : List Char) : List CodeChunk :=
  if blank content then []
  else if cfg.use_ast_chunking = true ∧ pf.components ≠ [] then
    chunk_by_components count cfg pf content
  else
    chunk_by_tokens count cfg pf content

end Chunker

/-! ## Indexer (src/frontend_scanner/agents/indexer.py) and FAISS persistence -/

namespace VectorStore

/-- On-disk persistence directory of the FAISS backend: the two files
persist writes. -/
structure PersistDir where
  indexFile : Option (List (List Int))
  metadataFile : Option (List FaissEntry)
deriving DecidableEq, Repr

/-- Failure injection for the two writes persist performs, modelling the
I/O outcomes of faiss.write_index and the pickle dump. -/
inductive PersistIO where
  | ok
  | failIndexWrite
  | failMetadataWrite
deriving DecidableEq, Repr

/-- FAISSVectorStore.persist: writes index.faiss, then metadata.pkl, inside one
try/except that logs and swallows any failure.  A failing first write leaves
the directory untouched; a failing second write leaves the freshly written
index beside the old metadata.  In every case the method returns normally. -/
def FAISSVectorStore.persist (st : FAISSVectorStore) (io : PersistIO)
    (disk : PersistDir) : PersistDir :=
  match io with
  | .ok => ⟨some st.vectors, some st.chunk_data⟩
  | .failIndexWrite => disk
  | .failMetadataWrite => { disk with indexFile := some st.vectors }

/-- ChunkEmbedding (embedder.py). -/
structure ChunkEmbedding where
  chunk_id : String
  embedding : List Int
  model : String
deriving DecidableEq, Repr

/-- The dict IndexerAgent.build_index returns, minus the store object. -/
structure BuildReport where
  store_present : Bool
  total_chunks : Nat
  total_embeddings : Nat
deriving DecidableEq, Repr

/-- Python dict double-spread: left mapping updated by the right one. -/
def dictMerge (base extra : PyDict) : PyDict :=
  extra.foldl (fun acc kv => dictInsert kv.1 kv.2 acc) base

/-- The metadata dict build_index passes to add for one chunk. -/
def indexMetadata (c : Chunker.CodeChunk) : PyDict :=
  dictMerge
    [("file_path", .str c.file_path),
     ("start_line", .intv c.start_line),
     ("end_line", .intv c.end_line),
     ("chunk_type", .str c.chunk_type),
     ("language", .str c.language)]
    c.metadata

/-- IndexerAgent.build_index: adds each (chunk, embedding) pair — each add is
separately guarded, so failures are logged and skipped — then calls persist
(which swallows its own failures) and unconditionally reports success
totals. -/
def build_index (dim : Nat) (io : PersistIO) (disk : PersistDir)
    (chunks : List Chunker.CodeChunk) (embeddings : List ChunkEmbedding) :
    FAISSVectorStore × PersistDir × BuildReport :=
  let st := (List.zip chunks embeddings).foldl
    (fun acc ce =>
      acc.add ce.1.chunk_id ce.2.embedding ce.1.content
        (indexMetadata ce.1) ce.1.provenance)
    (FAISSVectorStore.init dim)
  (st, st.persist io disk, ⟨true, chunks.length, embeddings.length⟩)

end VectorStore

/-! ## Regular-expression engine (Python re restricted to the constructs the
redaction patterns use), with Brzozowski derivatives

Character classes are executable predicates (ASCII model of the Python
classes).  All four redaction patterns are deterministic — at every branch
point the relevant character classes are disjoint — so Python's
backtracking match at a position equals the longest accepted prefix, which
is what `maxMatch` computes. -/

namespace Re

/-- Regular expressions over Char with executable character classes. -/
inductive RE where
  | fail
  | eps
  | cls (p : Char → Bool)
  | cat (a b : RE)
  | alt (a b : RE)
  | star (a : RE)

/-- Exact-match semantics. -/
inductive Accepts : RE → List Char → Prop where
  | eps : Accepts .eps []
  | cls {p c} : p c = true → Accepts (.cls p) [c]
  | cat {a b u v} : Accepts a u → Accepts b v → Accepts (.cat a b) (u ++ v)
  | altL {a b u} : Accepts a u → Accepts (.alt a b) u
  | altR {a b u} : Accepts b u → Accepts (.alt a b) u
  | starNil {a} : Accepts (.star a) []
  | starCat {a u v} : Accepts a u → Accepts (.star a) v → Accepts (.star a) (u ++ v)

/-- Nullability: does the expression accept the empty string. -/
def null : RE → Bool
  | .fail => false
  | .eps => true
  | .cls _ => false
  | .cat a b => null a && null b
  | .alt a b => null a || null b
  | .star _ => true

/-- Smart concatenation, keeping derivative terms small. -/
def scat : RE → RE → RE
  | .fail, _ => .fail
  | .eps, b => b
  | _, .fail => .fail
  | a, .eps => a
  | a, b => .cat a b

/-- Smart alternation, keeping derivative terms small. -/
def salt : RE → RE → RE
  | .fail, b => b
  | a, .fail => a
  | a, b => .alt a b

/-- Brzozowski derivative with smart constructors. -/
def deriv (r : RE) (c : Char) : RE :=
  match r with
  | .fail => .fail
  | .eps => .fail
  | .cls p => if p c then .eps else .fail
  | .cat a b =>
    if null a then salt (scat (deriv a c) b) (deriv b c) else scat (deriv a c) b
  | .alt a b => salt (deriv a c) (deriv b c)
  | .star a => scat (deriv a c) (.star a)

/-- Executable whole-string acceptance. -/
def accepts (r : RE) (u : List Char) : Bool :=
  null (u.foldl deriv r)

/-- Length of the longest accepted prefix, if any prefix (possibly empty) is
accepted. -/
def maxMatch (r : RE) : List Char → Option Nat
  | [] => if null r then some 0 else none
  | c :: s =>
    match maxMatch (deriv r c) s with
    | some n => some (n + 1)
    | none => if null r then some 0 else none

/-- The fixed replacement text of RedactorAgent. -/
def redactedMid : List Char :=
  ['R', 'E', 'D', 'A', 'C', 'T', 'E', 'D']

/-- The replacement including its bracket delimiters. -/
def replList : List Char :=
  '[' :: redactedMid ++ [']']

/-- Fuelled scan of pattern.sub: at each position, consume the (non-empty)
match and emit the replacement, else copy one character.  The redaction
patterns never match the empty string, so the zero-length arm (where Python
would insert and advance) degenerates to a copy and is unreachable. -/
def reSubGo (r : RE) : Nat → List Char → List Char
  | 0, s => s
  | _ + 1, [] => []
  | fuel + 1, c :: rest =>
    match maxMatch r (c :: rest) with
    | some (n + 1) => replList ++ reSubGo r fuel (rest.drop n)
    | some 0 => c :: reSubGo r fuel rest
    | none => c :: reSubGo r fuel rest

/-- Python pattern.sub with the fixed replacement: leftmost, non-overlapping,
each match being the longest accepted prefix at its position. -/
def reSub (r : RE) (s : List Char) : List Char :=
  reSubGo r s.length s

/-- No match of r starts at any position of t. -/
def NoMatchesIn (r : RE) (t : List Char) : Prop :=
  ∀ i, maxMatch r (t.drop i) = none

/-- Does some match of r start at some position of t. -/
def hasMatchIn (r : RE) (t : List Char) : Bool :=
  (List.range (t.length + 1)).any fun i => (maxMatch r (t.drop i)).isSome

/-- No character class of r admits c. -/
def clsexcl (r : RE) (c : Char) : Bool :=
  match r with
  | .fail => true
  | .eps => true
  | .cls p => !(p c)
  | .cat a b => clsexcl a c && clsexcl b c
  | .alt a b => clsexcl a c && clsexcl b c
  | .star a => clsexcl a c

/-- The conjunction of facts each redaction pattern satisfies: its classes
reject both brackets, it never matches the empty string, and it matches no
substring of the replacement's interior. -/
def GoodPat (r : RE) : Prop :=
  clsexcl r '[' = true ∧ clsexcl r ']' = true ∧ null r = false
    ∧ ∀ t ∈ redactedMid.tails, ∀ u ∈ t.inits, accepts r u = false

/-- Single literal character. -/
def chr (c : Char) : RE :=
  .cls fun x => x = c

/-- Case-insensitive literal character ((?i) on an ASCII letter). -/
def chrCI (c : Char) : RE :=
  .cls fun x => x = c || x = c.toUpper

/-- Literal word. -/
def lit : List Char → RE
  | [] => .eps
  | c :: cs => .cat (chr c) (lit cs)

/-- Case-insensitive literal word. -/
def litCI : List Char → RE
  | [] => .eps
  | c :: cs => .cat (chrCI c) (litCI cs)

/-- r? -/
def opt (r : RE) : RE :=
  .alt r .eps

/-- r+ -/
def plus (r : RE) : RE :=
  .cat r (.star r)

/-- r{n} -/
def rep (r : RE) : Nat → RE
  | 0 => .eps
  | n + 1 => .cat r (rep r n)

/-- ASCII model of the regex class backslash-w. -/
def isWordB (c : Char) : Bool :=
  c.isAlphanum || c = '_'

/-- The regex class backslash-s (ASCII). -/
def wsCls : RE :=
  .cls pyIsSpace

/-- The class of word characters and hyphen. -/
def wordDash : RE :=
  .cls fun c => isWordB c || c = '-'

/-- The class of word characters, hyphen and dot. -/
def wordDashDot : RE :=
  .cls fun c => isWordB c || c = '-' || c = '.'

/-- The class [a-zA-Z0-9]. -/
def alnumCls : RE :=
  .cls Char.isAlphanum

/-- The class of the two quote characters. -/
def quoteCls : RE :=
  .cls fun c => c = '\'' || c = '"'

/-- The class [:=]. -/
def colonEq : RE :=
  .cls fun c => c = ':' || c = '='

/-- api[_-]?key, case-insensitive. -/
def kwApiKey : RE :=
  .cat (litCI ['a', 'p', 'i'])
    (.cat (opt (.cls fun c => c = '_' || c = '-')) (litCI ['k', 'e', 'y']))

/-- The keyword alternation of the first redaction pattern. -/
def keyword1 : RE :=
  .alt kwApiKey
    (.alt (litCI ['s', 'e', 'c', 'r', 'e', 't'])
      (.alt (litCI ['p', 'a', 's', 's', 'w', 'o', 'r', 'd'])
        (litCI ['t', 'o', 'k', 'e', 'n'])))

/-- SecurityConfig.redact_patterns[0]:
(?i)(api[_-]?key|secret|password|token) ws* [:=] ws* quote? [word-]+ quote? -/
def pattern1 : RE :=
  .cat keyword1
    (.cat (.star wsCls)
      (.cat colonEq
        (.cat (.star wsCls)
          (.cat (opt quoteCls) (.cat (plus wordDash) (opt quoteCls))))))

/-- SecurityConfig.redact_patterns[1]: (?i)bearer ws+ [word-.]+ -/
def pattern2 : RE :=
  .cat (litCI ['b', 'e', 'a', 'r', 'e', 'r']) (.cat (plus wsCls) (plus wordDashDot))

/-- SecurityConfig.redact_patterns[2]: sk-[a-zA-Z0-9]{20,} -/
def pattern3 : RE :=
  .cat (lit ['s', 'k', '-']) (.cat (rep alnumCls 20) (.star alnumCls))

/-- SecurityConfig.redact_patterns[3]: ghp_[a-zA-Z0-9]{36} -/
def pattern4 : RE :=
  .cat (lit ['g', 'h', 'p', '_']) (rep alnumCls 36)

/-- The default SecurityConfig.redact_patterns list, compiled. -/
def redactPatterns : List RE :=
  [pattern1, pattern2, pattern3, pattern4]

/-- The sequential substitution loop of RedactorAgent.redact over a pattern
list. -/
def applyAll (ps : List RE) (s : List Char) : List Char :=
  ps.foldl (fun acc p => reSub p acc) s

end Re

/-! ## Redactor (src/frontend_scanner/agents/redactor.py) -/

/-- SecurityConfig restricted to the fields the redactor reads. -/
structure SecurityConfig where
  redact_secrets : Bool
  redact_patterns : List Re.RE

/-- The default SecurityConfig (config.py). -/
def defaultSecurityConfig : SecurityConfig :=
  ⟨true, Re.redactPatterns⟩

/-- RedactorAgent.redact: when redaction is off or no patterns are compiled
the chunk is returned unchanged; otherwise every pattern is substituted in
order over the content, metadata gains redacted: true, and every other field
is copied. -/
def RedactorAgent.redact (cfg : SecurityConfig) (chunk : Chunker.CodeChunk) :
    Chunker.CodeChunk :=
  if cfg.redact_secrets = false ∨ cfg.redact_patterns.isEmpty then chunk
  else
    { chunk with
        content := Re.applyAll cfg.redact_patterns chunk.content,
        metadata := dictInsert "redacted" (.boolv true) chunk.metadata }

/-! ## Concrete inputs used by witnesses and counterexamples -/

/-- A chunk whose content is a secret-shaped assignment. -/
def chunkSecret : Chunker.CodeChunk :=
  { chunk_id := "f.js:component:0", file_path := "f.js",
    content := ("API_KEY = \"sk-1234567890abcdef1234\"").toList,
    start_line := 0, end_line := 1, token_count := 9, chunk_type := "component",
    language := "javascript", metadata := [("component_name", .str "App")],
    provenance := [("file", .str "f.js"), ("lines", .str "0-1")] }

/-- A two-entry FAISS store: a python-tagged vector at the origin and a
go-tagged vector at distance 10. -/
def storeC1 : VectorStore.FAISSVectorStore :=
  ((VectorStore.FAISSVectorStore.init 1).add "a" [0] []
      [("language", .str "python")] []).add "b" [10] []
    [("language", .str "go")] []

/-- A one-line chunk used by the indexer examples. -/
def chunkC5 : Chunker.CodeChunk :=
  { chunk_id := "f.js:token:0", file_path := "f.js", content := ['x'],
    start_line := 0, end_line := 1, token_count := 1, chunk_type := "text",
    language := "javascript", metadata := [], provenance := [] }

/-- The embedding paired with chunkC5. -/
def embC5 : VectorStore.ChunkEmbedding :=
  ⟨"f.js:token:0", [1], "model"⟩

/-- A chunking configuration with a 10-token budget and 2-token overlap. -/
def cfgC2 : Chunker.ChunkingConfig :=
  ⟨10, 2, true, 100⟩

/-- A parsed file with no extracted components. -/
def pfNoComp : Chunker.ParsedFile :=
  ⟨"f.js", "javascript", none, []⟩

/-- A parsed file with one single-line component. -/
def pfOneComp : Chunker.ParsedFile :=
  ⟨"f.js", "javascript", none, [⟨"App", "function", [], 0, 0⟩]⟩

/-- ChunkerAgent module import: chunker.py line 4 imports tiktoken unguarded,
so a missing package raises ModuleNotFoundError at import time — unlike
utils/chunking.py, whose import sits inside try/except ImportError. -/
def chunkerModuleImport (tiktokenInstalled : Bool) : Except String Unit :=
  if tiktokenInstalled then .ok ()
  else .error "ModuleNotFoundError: No module named tiktoken"

/-- utils.chunking.count_tokens: guarded import; when tiktoken is absent the
estimate deterministically falls back to length divided by 4. -/
def utils_count_tokens (tiktokenAvailable : Bool) (enc : List Char → Nat)
    (text : List Char) : Nat :=
  if tiktokenAvailable then enc text else text.length / 4

/-! ## Lemmas and claim theorems -/

section DictLemmas

theorem lookup_cons_pair {β : Type} (k a : String) (b : β) (l : List (String × β)) :
    List.lookup k ((a, b) :: l) = if k = a then some b else List.lookup k l := by
  by_cases h : k = a
  · simp [List.lookup, h]
  · have hne : (k == a) = false := beq_eq_false_iff_ne.mpr h
    simp [List.lookup, hne, h]

theorem lookup_map_overwrite (k : String) (v : MVal) (m : PyDict)
    (hs : (m.lookup k).isSome) :
    (m.map fun p => if p.1 = k then (k, v) else p).lookup k = some v := by
  induction m with
  | nil => simp at hs
  | cons p rest ih =>
    obtain ⟨a, b⟩ := p
    rw [lookup_cons_pair] at hs
    by_cases hk : k = a
    · have hab : (if (a, b).1 = k then (k, v) else (a, b)) = (k, v) := by
        simp [hk]
      rw [List.map_cons, hab, lookup_cons_pair, if_pos rfl]
    · have hab : (if (a, b).1 = k then (k, v) else (a, b)) = (a, b) := by
        simp; intro h; exact absurd h.symm hk
      rw [List.map_cons, hab, lookup_cons_pair, if_neg hk]
      rw [if_neg hk] at hs
      exact ih hs

theorem lookup_append_single (k : String) (v : MVal) (m : PyDict)
    (hn : m.lookup k = none) :
    (m ++ [(k, v)]).lookup k = some v := by
  induction m with
  | nil => simp [List.lookup]
  | cons p rest ih =>
    obtain ⟨a, b⟩ := p
    rw [lookup_cons_pair] at hn
    by_cases hk : k = a
    · rw [if_pos hk] at hn; exact absurd hn (by simp)
    · rw [if_neg hk] at hn
      rw [List.cons_append, lookup_cons_pair, if_neg hk]
      exact ih hn

theorem lookup_dictInsert (k : String) (v : MVal) (m : PyDict) :
    (dictInsert k v m).lookup k = some v := by
  unfold dictInsert
  by_cases hs : (m.lookup k).isSome
  · rw [if_pos hs]
    exact lookup_map_overwrite k v m hs
  · rw [if_neg hs]
    exact lookup_append_single k v m (Option.not_isSome_iff_eq_none.mp hs)

theorem lookup_none_key_absent (k : String) (m : PyDict)
    (hn : m.lookup k = none) : ∀ p ∈ m, p.1 ≠ k := by
  induction m with
  | nil => simp
  | cons p rest ih =>
    obtain ⟨a, b⟩ := p
    rw [lookup_cons_pair] at hn
    by_cases hk : k = a
    · rw [if_pos hk] at hn; exact absurd hn (by simp)
    · rw [if_neg hk] at hn
      intro q hq
      rcases List.mem_cons.mp hq with h | h
      · subst h; exact fun he => hk he.symm
      · exact ih hn q h

theorem keyFixed_dictInsert (k : String) (v : MVal) (m : PyDict) :
    ∀ p ∈ dictInsert k v m, p.1 = k → p = (k, v) := by
  unfold dictInsert
  by_cases hs : (m.lookup k).isSome
  · rw [if_pos hs]
    intro p hp hpk
    rcases List.mem_map.mp hp with ⟨q, _, hq⟩
    by_cases hqk : q.1 = k
    · simp [hqk] at hq; exact hq.symm
    · simp only [if_neg hqk] at hq
      exact absurd (hq ▸ hpk) hqk
  · rw [if_neg hs]
    intro p hp hpk
    rcases List.mem_append.mp hp with h | h
    · exact absurd hpk
        (lookup_none_key_absent k m (Option.not_isSome_iff_eq_none.mp hs) p h)
    · simpa using h

theorem map_overwrite_fixed (k : String) (v : MVal) (t : PyDict)
    (h : ∀ p ∈ t, p.1 = k → p = (k, v)) :
    (t.map fun p => if p.1 = k then (k, v) else p) = t := by
  induction t with
  | nil => rfl
  | cons p rest ih =>
    simp only [List.map_cons, List.cons.injEq]
    refine ⟨?_, ih fun q hq => h q (List.mem_cons_of_mem p hq)⟩
    by_cases hk : p.1 = k
    · rw [if_pos hk]
      exact (h p (List.mem_cons_self p rest) hk).symm
    · rw [if_neg hk]

theorem dictInsert_idem (k : String) (v : MVal) (m : PyDict) :
    dictInsert k v (dictInsert k v m) = dictInsert k v m := by
  have hl := lookup_dictInsert k v m
  have hfix := keyFixed_dictInsert k v m
  generalize ht : dictInsert k v m = t at hl hfix
  unfold dictInsert
  rw [if_pos (by rw [hl]; rfl)]
  exact map_overwrite_fixed k v t hfix

end DictLemmas

section MetadataTheorems

theorem lookup_of_mem_nodup (l : List (String × String)) (p h : String)
    (hnd : (l.map Prod.fst).Nodup) (hm : (p, h) ∈ l) :
    l.lookup p = some h := by
  induction l with
  | nil => simp at hm
  | cons q rest ih =>
    obtain ⟨a, b⟩ := q
    rw [lookup_cons_pair]
    simp only [List.map_cons, List.nodup_cons] at hnd
    rcases List.mem_cons.mp hm with he | hmem
    · obtain ⟨rfl, rfl⟩ := Prod.mk.injEq p h a b ▸ he
      rw [if_pos rfl]
    · by_cases hpa : p = a
      · subst hpa
        exact absurd (List.mem_map.mpr ⟨(p, h), hmem, rfl⟩) hnd.1
      · rw [if_neg hpa]
        exact ih hnd.2 hmem

/-- C3: counterexample.  The stored table holds a.js but the current digest map
is empty; the claim requires the diff to mark a.js as deleted, but
get_changed_files computes no deleted set at all: its entire output here is
empty, so the stored-only path is not marked in any way. -/
theorem C3_counterexample :
    MetadataStore.get_changed_files [("a.js", "h1")] [] = [] := rfl

/-- C3 (amended): get_changed_files marks as changed exactly the current paths
whose digest differs from or is absent in storage, and diffing a digest map
against its own stored table yields the empty change list; however no deleted
set is computed — paths present only in storage are never reported. -/
theorem C3_diff_changed_only :
    (∀ (table : MetadataStore.FilesTable) (current : List (String × String))
        (p : String),
        p ∈ MetadataStore.get_changed_files table current ↔
          ∃ h, (p, h) ∈ current ∧ MetadataStore.get_file table p ≠ some h)
    ∧ ∀ current : List (String × String), (current.map Prod.fst).Nodup →
        MetadataStore.get_changed_files current current = [] := by
  constructor
  · intro table current p
    unfold MetadataStore.get_changed_files
    simp only [List.mem_map, List.mem_filter]
    constructor
    · rintro ⟨⟨q, hq⟩, ⟨hmem, hpred⟩, rfl⟩
      refine ⟨hq, hmem, ?_⟩
      rcases heq : MetadataStore.get_file table q with _ | h0
      · simp
      · rw [heq] at hpred
        simp only [bne_iff_ne, ne_eq] at hpred
        simp only [ne_eq, Option.some.injEq]
        exact fun hc => hpred hc
    · rintro ⟨h, hmem, hne⟩
      refine ⟨(p, h), ⟨hmem, ?_⟩, rfl⟩
      rcases heq : MetadataStore.get_file table p with _ | h0
      · rfl
      · rw [heq] at hne
        simp only [bne_iff_ne, ne_eq]
        exact fun hc => hne (by rw [hc])
  · intro current hnd
    unfold MetadataStore.get_changed_files
    have : current.filter (fun ph =>
        match MetadataStore.get_file current ph.1 with
        | none => true
        | some h => h != ph.2) = [] := by
      rw [List.filter_eq_nil_iff]
      rintro ⟨p, h⟩ hmem
      have hl : MetadataStore.get_file current p = some h :=
        lookup_of_mem_nodup current p h hnd hmem
      simp [hl]
    rw [this]
    rfl

theorem C3_diff_changed_only_witness :
    MetadataStore.get_changed_files [("a.js", "h1")] [("a.js", "h1")] = [] :=
  C3_diff_changed_only.2 [("a.js", "h1")] (by decide)

end MetadataTheorems

section VectorStoreTheorems

/-- C1: counterexample.  storeC1 holds exactly one go-tagged entry; a k=1 query
with the go filter returns nothing because FAISS ranks first (the python
entry is nearer) and filters the ranked hits afterwards — rank-then-filter,
so the stored matching entry is lost even though at least k matching entries
are stored. -/
theorem C1_counterexample :
    VectorStore.FAISSVectorStore.query storeC1 [0] 1 [("language", .str "go")] = []
    ∧ 1 ≤ (storeC1.chunk_data.filter fun e =>
        VectorStore.matchesFilters [("language", .str "go")] e.metadata).length := by
  decide

/-- C1 (amended): with a non-empty filter map, every entry returned by
FAISSVectorStore.query satisfies every filter key exactly; but the filter is
applied after the top-k ranking, so fewer than k matching entries can be
returned even when at least k matching entries are stored. -/
theorem C1_faiss_filter_soundness (st : VectorStore.FAISSVectorStore)
    (q : List Int) (k : Nat) (filters : PyDict) (hf : filters ≠ [])
    (r : VectorStore.QueryResult) (hr : r ∈ st.query q k filters) :
    VectorStore.matchesFilters filters r.metadata = true := by
  unfold VectorStore.FAISSVectorStore.query at hr
  split at hr
  · simp at hr
  · rcases List.mem_filterMap.mp hr with ⟨x, _, hfx⟩
    rcases hget : st.chunk_data.get? x.1 with _ | e
    · rw [hget] at hfx
      simp at hfx
    · rw [hget] at hfx
      have hne : filters.isEmpty = false := by
        cases filters
        · exact absurd rfl hf
        · rfl
      simp only [hne, Bool.false_eq_true, if_false] at hfx
      split at hfx
      · rename_i hmatch
        obtain rfl := Option.some.inj hfx
        exact hmatch
      · simp at hfx

theorem C1_faiss_filter_soundness_witness :
    VectorStore.matchesFilters [("language", MVal.str "python")]
      (VectorStore.QueryResult.mk "a" [] [("language", MVal.str "python")] [] 0).metadata
      = true :=
  C1_faiss_filter_soundness storeC1 [0] 1 [("language", MVal.str "python")]
    (by decide) (VectorStore.QueryResult.mk "a" [] [("language", MVal.str "python")] [] 0)
    (by decide)

/-- C4: counterexample.  Adding a 3-dimensional vector to a 2-dimensional FAISS
store neither aborts nor records anything: the backend error is caught and
logged, the entry is silently dropped, and a later well-formed add still
succeeds — the run continues instead of failing fast with a diagnostic. -/
theorem C4_counterexample :
    ((VectorStore.FAISSVectorStore.init 2).add "a" [1, 2, 3] [] [] []).chunk_data = []
    ∧ (((VectorStore.FAISSVectorStore.init 2).add "a" [1, 2, 3] [] [] []).add
        "b" [1, 2] [] [] []).chunk_data.length = 1 := by
  decide

/-- C4 (amended): a dimension-mismatched embedding is not fatal: the backend
exception is caught inside FAISSVectorStore.add, the vector and its chunk
record are dropped (no truncation or padding), the store is returned
unchanged, and the run continues; the embedder performs no dimension
validation of its own. -/
theorem C4_mismatch_silently_dropped (st : VectorStore.FAISSVectorStore)
    (cid : String) (emb : List Int) (content : List Char) (md pv : PyDict)
    (h : emb.length ≠ st.dimension) :
    st.add cid emb content md pv = st := by
  unfold VectorStore.FAISSVectorStore.add
  rw [if_neg h]

theorem C4_mismatch_silently_dropped_witness :
    (VectorStore.FAISSVectorStore.init 2).add "a" [1] [] [] [] =
      VectorStore.FAISSVectorStore.init 2 :=
  C4_mismatch_silently_dropped (VectorStore.FAISSVectorStore.init 2)
    "a" [1] [] [] [] (by decide)

/-- C5: counterexample.  With the index write failing, build_index returns the
very same success report as a clean run, and the store is reported present:
the persistence failure is swallowed inside persist, the run is not aborted,
and the caller cannot distinguish it from success. -/
theorem C5_counterexample :
    (VectorStore.build_index 1 .failIndexWrite ⟨none, none⟩ [chunkC5] [embC5]).2.2 =
      (VectorStore.build_index 1 .ok ⟨none, none⟩ [chunkC5] [embC5]).2.2
    ∧ (VectorStore.build_index 1 .failIndexWrite ⟨none, none⟩
        [chunkC5] [embC5]).2.2.store_present = true := by
  decide

/-- C5 (amended): a persist failure is caught and logged inside
FAISSVectorStore.persist rather than aborting the run: a failing index write
leaves the directory untouched, a failing metadata write (after a successful
index write) leaves a mixed on-disk state, and build_index reports the same
success totals regardless of the persistence outcome. -/
theorem C5_persist_failure_swallowed :
    (∀ (st : VectorStore.FAISSVectorStore) (disk : VectorStore.PersistDir),
        st.persist .failIndexWrite disk = disk
        ∧ st.persist .failMetadataWrite disk =
            { disk with indexFile := some st.vectors })
    ∧ ∀ (dim : Nat) (io : VectorStore.PersistIO) (disk : VectorStore.PersistDir)
        (chunks : List Chunker.CodeChunk)
        (embeddings : List VectorStore.ChunkEmbedding),
        (VectorStore.build_index dim io disk chunks embeddings).2.2 =
          ⟨true, chunks.length, embeddings.length⟩ :=
  ⟨fun _ _ => ⟨rfl, rfl⟩, fun _ _ _ _ _ => rfl⟩

/-- C10: the query paths never propagate a backend failure: the Chroma wrapper
maps a raised backend error to the empty list, and the FAISS wrapper returns
the empty list both for a malformed (wrong-dimension) query vector and on an
empty index. -/
theorem C10_query_never_raises :
    (∀ e : String, VectorStore.chromaQuery (.error e) = [])
    ∧ (∀ (st : VectorStore.FAISSVectorStore) (q : List Int) (k : Nat) (f : PyDict),
        q.length ≠ st.dimension → st.query q k f = [])
    ∧ ∀ (d : Nat) (q : List Int) (k : Nat) (f : PyDict),
        (VectorStore.FAISSVectorStore.init d).query q k f = [] := by
  refine ⟨fun e => rfl, fun st q k f h => ?_, fun d q k f => ?_⟩
  · unfold VectorStore.FAISSVectorStore.query
    rw [if_pos h]
  · unfold VectorStore.FAISSVectorStore.query
    split
    · rfl
    · simp [VectorStore.FAISSVectorStore.search, VectorStore.FAISSVectorStore.init,
        VectorStore.sortByDist]

theorem C10_query_never_raises_witness :
    VectorStore.FAISSVectorStore.query (VectorStore.FAISSVectorStore.init 2) [5] 3 [] = [] :=
  C10_query_never_raises.2.1 (VectorStore.FAISSVectorStore.init 2) [5] 3 [] (by decide)

end VectorStoreTheorems

section ChunkerLemmas

theorem overlapGo_length (count : List Char → Nat) (ovl : Nat) :
    ∀ (l : List (List Char)) (t : Nat) (acc : List (List Char)),
      (Chunker.overlapGo count ovl l t acc).length ≤ l.length + acc.length := by
  intro l
  induction l with
  | nil =>
    intro t acc
    simp [Chunker.overlapGo]
  | cons x rest ih =>
    intro t acc
    simp only [Chunker.overlapGo]
    split
    · simp only [List.length_cons]
      omega
    · have h := ih (t + count x) (x :: acc)
      simp only [List.length_cons] at h ⊢
      omega

theorem get_overlap_lines_length (count : List Char → Nat) (ovl : Nat)
    (ls : List (List Char)) :
    (Chunker.get_overlap_lines count ovl ls).length ≤ ls.length := by
  have h := overlapGo_length count ovl ls.reverse 0 []
  simpa [Chunker.get_overlap_lines] using h

theorem pslAux_no_newline (s : List Char) :
    ∀ acc, '\n' ∉ acc → ∀ u ∈ pslAux acc s, '\n' ∉ u := by
  induction s with
  | nil =>
    intro acc hacc u hu
    simp only [pslAux] at hu
    split at hu
    · simp at hu
    · rw [List.mem_singleton] at hu
      subst hu
      simpa using hacc
  | cons c rest ih =>
    intro acc hacc u hu
    simp only [pslAux] at hu
    by_cases hc : c = '\n'
    · rw [if_pos hc] at hu
      rcases List.mem_cons.mp hu with rfl | h
      · simpa using hacc
      · exact ih [] (by simp) u h
    · rw [if_neg hc] at hu
      refine ih (c :: acc) ?_ u hu
      intro h
      rcases List.mem_cons.mp h with h1 | h2
      · exact hc h1.symm
      · exact hacc h2

theorem pySplitlines_no_newline (s : List Char) :
    ∀ u ∈ pySplitlines s, '\n' ∉ u :=
  pslAux_no_newline s [] (by simp)

theorem pslAux_append_newline (u : List Char) (hnl : '\n' ∉ u) (v : List Char) :
    ∀ acc, pslAux acc (u ++ '\n' :: v) = (acc.reverse ++ u) :: pslAux [] v := by
  induction u with
  | nil =>
    intro acc
    simp [pslAux]
  | cons c cs ih =>
    intro acc
    have hc : c ≠ '\n' := fun h => hnl (h ▸ List.mem_cons_self c cs)
    have hcs : '\n' ∉ cs := fun h => hnl (List.mem_cons_of_mem c h)
    simp only [List.cons_append, pslAux, if_neg fun h => hc h, List.append_eq]
    rw [ih hcs (c :: acc)]
    simp

theorem pslAux_no_newline_whole (u : List Char) (hnl : '\n' ∉ u) :
    ∀ acc, pslAux acc u =
      if acc.reverse ++ u = [] then [] else [acc.reverse ++ u] := by
  induction u with
  | nil =>
    intro acc
    simp [pslAux]
  | cons c cs ih =>
    intro acc
    have hc : c ≠ '\n' := fun h => hnl (h ▸ List.mem_cons_self c cs)
    have hcs : '\n' ∉ cs := fun h => hnl (List.mem_cons_of_mem c h)
    simp only [pslAux, if_neg fun h => hc h]
    rw [ih hcs (c :: acc)]
    simp

theorem psl_join_le (l : List (List Char)) (hnl : ∀ u ∈ l, '\n' ∉ u) :
    (pySplitlines (joinLines l)).length ≤ l.length := by
  induction l with
  | nil => simp [joinLines, pySplitlines, pslAux]
  | cons a rest ih =>
    cases rest with
    | nil =>
      show (pySplitlines (joinLines [a])).length ≤ 1
      rw [show joinLines [a] = a from rfl, pySplitlines,
        pslAux_no_newline_whole a (hnl a (by simp)) []]
      split <;> simp
    | cons b rest2 =>
      rw [show joinLines (a :: b :: rest2) = a ++ '\n' :: joinLines (b :: rest2)
          from rfl, pySplitlines,
        pslAux_append_newline a (hnl a (by simp)) _ []]
      have h := ih fun u hu => hnl u (List.mem_cons_of_mem a hu)
      rw [pySplitlines] at h
      simp only [List.length_cons] at h ⊢
      omega

theorem tokenLoop_bounds (count : List Char → Nat) (chunk_size overlap : Nat)
    (pf : Chunker.ParsedFile) (n : Nat) :
    ∀ (ls : List (List Char)) (i : Nat) (cur : List (List Char))
      (curTok startLn idx : Nat),
      startLn + cur.length = i → i + ls.length = n →
      ∀ c ∈ Chunker.tokenLoop count chunk_size overlap pf ls i cur curTok startLn idx,
        blank c.content = false ∧ c.start_line < c.end_line ∧ c.end_line ≤ n := by
  intro ls
  induction ls with
  | nil =>
    intro i cur curTok startLn idx h1 h2 c hc
    simp only [Chunker.tokenLoop] at hc
    split at hc
    · rename_i hcond
      rw [List.mem_singleton] at hc
      subst hc
      have hlen : 0 < cur.length := List.length_pos.mpr hcond.1
      simp only [List.length_nil, Nat.add_zero] at h2
      exact ⟨hcond.2, by simp only [Chunker.mkTextChunk]; omega,
        by simp only [Chunker.mkTextChunk]; omega⟩
    · simp at hc
  | cons line rest ih =>
    intro i cur curTok startLn idx h1 h2 c hc
    simp only [Chunker.tokenLoop] at hc
    split at hc
    · rename_i hcond
      rcases List.mem_append.mp hc with hl | hr
      · split at hl
        · rename_i hblank
          rw [List.mem_singleton] at hl
          subst hl
          have hlen : 0 < cur.length := List.length_pos.mpr hcond.2
          simp only [List.length_cons] at h2
          exact ⟨hblank, by simp only [Chunker.mkTextChunk]; omega,
            by simp only [Chunker.mkTextChunk]; omega⟩
        · simp at hl
      · have hov : (Chunker.get_overlap_lines count overlap cur).length ≤ cur.length :=
          get_overlap_lines_length count overlap cur
        refine ih (i + 1) _ _ _ _ ?_ ?_ c hr
        · simp only [List.length_append, List.length_cons, List.length_nil]
          omega
        · simp only [List.length_cons] at h2
          omega
    · refine ih (i + 1) (cur ++ [line]) _ _ _ ?_ ?_ c hc
      · simp only [List.length_append, List.length_cons, List.length_nil]
        omega
      · simp only [List.length_cons] at h2
        omega

theorem splitLoop_bounds (count : List Char → Nat) (chunk_size : Nat)
    (fp : String) (base : Nat) (comp : Chunker.Component) (lang : String)
    (n : Nat) :
    ∀ (ls : List (List Char)) (i : Nat) (cur : List (List Char))
      (curTok chunkStart nchunks : Nat),
      chunkStart + cur.length = i → i + ls.length = n →
      ∀ c ∈ Chunker.splitLoop count chunk_size fp base comp lang ls i cur curTok
          chunkStart nchunks,
        blank c.content = false ∧ c.start_line < c.end_line
          ∧ c.end_line ≤ base + n := by
  intro ls
  induction ls with
  | nil =>
    intro i cur curTok chunkStart nchunks h1 h2 c hc
    simp only [Chunker.splitLoop] at hc
    split at hc
    · rename_i hcond
      rw [List.mem_singleton] at hc
      subst hc
      have hlen : 0 < cur.length := List.length_pos.mpr hcond.1
      simp only [List.length_nil, Nat.add_zero] at h2
      exact ⟨hcond.2, by simp only [Chunker.mkSplitChunk]; omega,
        by simp only [Chunker.mkSplitChunk]; omega⟩
    · simp at hc
  | cons line rest ih =>
    intro i cur curTok chunkStart nchunks h1 h2 c hc
    simp only [Chunker.splitLoop] at hc
    split at hc
    · split at hc
      · rename_i hcond hblank
        rcases List.mem_cons.mp hc with hl | hr
        · subst hl
          have hlen : 0 < cur.length := List.length_pos.mpr hcond.2
          simp only [List.length_cons] at h2
          exact ⟨hblank, by simp only [Chunker.mkSplitChunk]; omega,
            by simp only [Chunker.mkSplitChunk]; omega⟩
        · refine ih (i + 1) [line] _ _ _ ?_ ?_ c hr
          · simp
          · simp only [List.length_cons] at h2
            omega
      · refine ih (i + 1) [line] _ _ _ ?_ ?_ c hc
        · simp
        · simp only [List.length_cons] at h2
          omega
    · refine ih (i + 1) (cur ++ [line]) _ _ _ ?_ ?_ c hc
      · simp only [List.length_append, List.length_cons, List.length_nil]
        omega
      · simp only [List.length_cons] at h2
        omega

theorem componentChunks_bounds (count : List Char → Nat)
    (cfg : Chunker.ChunkingConfig) (pf : Chunker.ParsedFile)
    (lines : List (List Char)) (hnl : ∀ u ∈ lines, '\n' ∉ u)
    (i : Nat) (comp : Chunker.Component) :
    ∀ c ∈ Chunker.componentChunks count cfg pf lines i comp,
      blank c.content = false ∧ c.start_line < c.end_line
        ∧ c.end_line ≤ lines.length := by
  intro c hc
  simp only [Chunker.componentChunks] at hc
  split at hc
  · simp at hc
  · rename_i hlt
    split at hc
    · simp at hc
    · rename_i hblank
      rw [not_le] at hlt
      have h0 : (0 : Int) ≤ max 0 comp.start_line := le_max_left 0 _
      have hle : min (lines.length : Int) (comp.end_line + 1) ≤ (lines.length : Int) :=
        min_le_left _ _
      split at hc
      · -- recursive split of the over-budget component chunk
        have hpieces : ∀ u ∈ (lines.drop (max 0 comp.start_line).toNat).take
            ((min (lines.length : Int) (comp.end_line + 1)).toNat -
              (max 0 comp.start_line).toNat), '\n' ∉ u :=
          fun u hu => hnl u (List.mem_of_mem_drop (List.mem_of_mem_take hu))
        simp only [Chunker.split_large_chunk] at hc
        have hb := splitLoop_bounds count cfg.chunk_size pf.file_path
          (max 0 comp.start_line).toNat comp pf.language
          (pySplitlines (joinLines ((lines.drop (max 0 comp.start_line).toNat).take
            ((min (lines.length : Int) (comp.end_line + 1)).toNat -
              (max 0 comp.start_line).toNat)))).length
          (pySplitlines (joinLines ((lines.drop (max 0 comp.start_line).toNat).take
            ((min (lines.length : Int) (comp.end_line + 1)).toNat -
              (max 0 comp.start_line).toNat)))) 0 [] 0 0 0
          rfl (by omega) c hc
        obtain ⟨hb1, hb2, hb3⟩ := hb
        refine ⟨hb1, hb2, ?_⟩
        have hpl := psl_join_le _ hpieces
        have hslice : ((lines.drop (max 0 comp.start_line).toNat).take
            ((min (lines.length : Int) (comp.end_line + 1)).toNat -
              (max 0 comp.start_line).toNat)).length =
            min ((min (lines.length : Int) (comp.end_line + 1)).toNat -
              (max 0 comp.start_line).toNat)
              (lines.length - (max 0 comp.start_line).toNat) := by
          rw [List.length_take, List.length_drop]
        omega
      · rw [List.mem_singleton] at hc
        subst hc
        rw [Bool.not_eq_true] at hblank
        refine ⟨hblank, ?_, ?_⟩
        · simp only [Chunker.mkComponentChunk]
          omega
        · simp only [Chunker.mkComponentChunk]
          omega

theorem linesLoop_bounds (count : List Char → Nat) (pf : Chunker.ParsedFile)
    (lines : List (List Char)) :
    ∀ idxs, ∀ c ∈ Chunker.linesLoop count pf lines idxs,
      blank c.content = false ∧ c.start_line < c.end_line
        ∧ c.end_line ≤ lines.length := by
  intro idxs
  induction idxs with
  | nil =>
    intro c hc
    simp [Chunker.linesLoop] at hc
  | cons i rest ih =>
    intro c hc
    simp only [Chunker.linesLoop] at hc
    rcases List.mem_append.mp hc with hl | hr
    · split at hl
      · simp at hl
      · rename_i hblank
        rw [List.mem_singleton] at hl
        subst hl
        rw [Bool.not_eq_true] at hblank
        have hne : (lines.drop i).take 50 ≠ [] := by
          intro h
          rw [h] at hblank
          simp [joinLines, blank] at hblank
        have hpos : 0 < ((lines.drop i).take 50).length := List.length_pos.mpr hne
        have hlen : ((lines.drop i).take 50).length =
            min 50 (lines.length - i) := by
          rw [List.length_take, List.length_drop]
        have hi : i < lines.length := by
          by_contra h
          rw [not_lt] at h
          rw [List.drop_eq_nil_of_le h] at hne
          simp at hne
        refine ⟨hblank, ?_, ?_⟩
        · simp only [Chunker.mkLinesChunk]
          omega
        · simp only [Chunker.mkLinesChunk]
          omega
    · exact ih c hr

/-- C9: every chunk emitted by ChunkerAgent.chunk — through the component
strategy (including recursive splits of oversized components) or the windowed
strategy — and likewise every chunk of the _chunk_by_lines fallback, has
content that is not empty or whitespace-only and a line span satisfying
0 ≤ start_line < end_line ≤ number of source lines. -/
theorem C9_chunk_line_bounds (count : List Char → Nat)
    (cfg : Chunker.ChunkingConfig) (pf : Chunker.ParsedFile)
    (content : List Char) (c : Chunker.CodeChunk)
    (hc : c ∈ Chunker.chunk count cfg pf content
        ∨ c ∈ Chunker.chunk_by_lines count pf content) :
    blank c.content = false ∧ c.start_line < c.end_line
      ∧ c.end_line ≤ (pySplitlines content).length := by
  rcases hc with hc | hc
  · simp only [Chunker.chunk] at hc
    split at hc
    · simp at hc
    · split at hc
      · simp only [Chunker.chunk_by_components] at hc
        split at hc
        · simp at hc
        · rcases List.mem_flatMap.mp hc with ⟨ic, _, hcc⟩
          exact componentChunks_bounds count cfg pf _
            (pySplitlines_no_newline content) ic.1 ic.2 c hcc
      · simp only [Chunker.chunk_by_tokens] at hc
        split at hc
        · simp at hc
        · exact tokenLoop_bounds count cfg.chunk_size cfg.chunk_overlap pf
            (pySplitlines content).length (pySplitlines content) 0 [] 0 0 0
            rfl (by omega) c hc
  · simp only [Chunker.chunk_by_lines] at hc
    exact linesLoop_bounds count pf _ _ c hc

theorem C9_chunk_line_bounds_witness :
    blank (Chunker.mkTextChunk pfNoComp 0 ['a', 'b'] 0 1 0).content = false
    ∧ (Chunker.mkTextChunk pfNoComp 0 ['a', 'b'] 0 1 0).start_line <
        (Chunker.mkTextChunk pfNoComp 0 ['a', 'b'] 0 1 0).end_line
    ∧ (Chunker.mkTextChunk pfNoComp 0 ['a', 'b'] 0 1 0).end_line ≤
        (pySplitlines ['a', 'b']).length :=
  C9_chunk_line_bounds (fun s => s.length / 4) cfgC2 pfNoComp ['a', 'b']
    (Chunker.mkTextChunk pfNoComp 0 ['a', 'b'] 0 1 0) (Or.inl (by decide))

theorem splitLoop_metadata (count : List Char → Nat) (chunk_size : Nat)
    (fp : String) (base : Nat) (comp : Chunker.Component) (lang : String) :
    ∀ (ls : List (List Char)) (i : Nat) (cur : List (List Char))
      (curTok chunkStart nchunks : Nat),
      ∀ c ∈ Chunker.splitLoop count chunk_size fp base comp lang ls i cur curTok
          chunkStart nchunks,
        c.metadata.lookup "split" = some (.boolv true) := by
  intro ls
  induction ls with
  | nil =>
    intro i cur curTok chunkStart nchunks c hc
    simp only [Chunker.splitLoop] at hc
    split at hc
    · rw [List.mem_singleton] at hc
      subst hc
      simp only [Chunker.mkSplitChunk]
      rw [lookup_cons_pair, if_neg (by decide), lookup_cons_pair, if_pos rfl]
    · simp at hc
  | cons line rest ih =>
    intro i cur curTok chunkStart nchunks c hc
    simp only [Chunker.splitLoop] at hc
    split at hc
    · split at hc
      · rcases List.mem_cons.mp hc with hl | hr
        · subst hl
          simp only [Chunker.mkSplitChunk]
          rw [lookup_cons_pair, if_neg (by decide), lookup_cons_pair, if_pos rfl]
        · exact ih _ _ _ _ _ c hr
      · exact ih _ _ _ _ _ c hc
    · exact ih _ _ _ _ _ c hc

theorem componentChunks_budget (count : List Char → Nat)
    (cfg : Chunker.ChunkingConfig) (pf : Chunker.ParsedFile)
    (lines : List (List Char)) (i : Nat) (comp : Chunker.Component) :
    ∀ c ∈ Chunker.componentChunks count cfg pf lines i comp,
      c.metadata.lookup "split" = none → c.token_count ≤ cfg.chunk_size := by
  intro c hc hns
  simp only [Chunker.componentChunks] at hc
  split at hc
  · simp at hc
  · split at hc
    · simp at hc
    · split at hc
      · simp only [Chunker.split_large_chunk] at hc
        have hsome := splitLoop_metadata count cfg.chunk_size pf.file_path _
          comp pf.language _ _ _ _ _ _ c hc
        rw [hsome] at hns
        cases hns
      · rename_i hle
        rw [List.mem_singleton] at hc
        subst hc
        rw [not_lt] at hle
        exact hle

/-- C2 (amended): a component chunk emitted without recursive splitting has
token_count within the configured budget — the source checks the estimate and
splits otherwise.  (The windowed strategy, the recursive split, and the
line-count fallback can all exceed the budget, e.g. on a single over-budget
line; the line fallback never consults the budget at all: see the
counterexample.) -/
theorem C2_component_chunks_within_budget (count : List Char → Nat)
    (cfg : Chunker.ChunkingConfig) (pf : Chunker.ParsedFile)
    (content : List Char) (c : Chunker.CodeChunk)
    (hc : c ∈ Chunker.chunk_by_components count cfg pf content)
    (hns : c.metadata.lookup "split" = none) :
    c.token_count ≤ cfg.chunk_size := by
  simp only [Chunker.chunk_by_components] at hc
  split at hc
  · simp at hc
  · rcases List.mem_flatMap.mp hc with ⟨ic, _, hcc⟩
    exact componentChunks_budget count cfg pf _ ic.1 ic.2 c hcc hns

theorem C2_component_chunks_within_budget_witness :
    (Chunker.mkComponentChunk pfOneComp 0 ⟨"App", "function", [], 0, 0⟩
      ['a', '=', '1'] 0 1 0).token_count ≤ cfgC2.chunk_size :=
  C2_component_chunks_within_budget (fun s => s.length / 4) cfgC2 pfOneComp
    ['a', '=', '1']
    (Chunker.mkComponentChunk pfOneComp 0 ⟨"App", "function", [], 0, 0⟩
      ['a', '=', '1'] 0 1 0)
    (by decide) (by decide)

/-- C2: counterexample.  A single 80-character line under a 10-token budget:
the windowed strategy accumulates the over-budget line into the current chunk
(the emission guard requires a non-empty accumulator) and emits a final chunk
whose token estimate is 20 > 10, violating the claimed invariant for chunks
returned by ChunkerAgent.chunk. -/
theorem C2_counterexample :
    ((Chunker.chunk (fun s => s.length / 4) cfgC2 pfNoComp
        (List.replicate 80 'a')).all
      fun c => c.token_count ≤ cfgC2.chunk_size) = false := by
  decide

/-- C8: on the failing input (tiktoken not installed) importing the chunker
module raises instead of degrading — chunker.py line 4 imports tiktoken
unguarded, so the ChunkerAgent hard-fails for lack of the dependency —
while the intended fallbacks do exist: ChunkerAgent.count_tokens returns
length div 4 whenever no encoding is loaded, and the standalone
utils.chunking.count_tokens falls back identically when the package is
absent. -/
theorem C8_tokenizer_fallback :
    chunkerModuleImport false =
        .error "ModuleNotFoundError: No module named tiktoken"
    ∧ (∀ t : List Char, Chunker.count_tokens none t = t.length / 4)
    ∧ ∀ (enc : List Char → Nat) (t : List Char),
        utils_count_tokens false enc t = t.length / 4 :=
  ⟨rfl, fun _ => rfl, fun _ _ => rfl⟩

end ChunkerLemmas

section ReLemmas

namespace Re

theorem accepts_fail_iff (u : List Char) : Accepts .fail u ↔ False := by
  constructor
  · intro h
    cases h
  · exact False.elim

theorem accepts_eps_iff (u : List Char) : Accepts .eps u ↔ u = [] := by
  constructor
  · intro h
    cases h
    rfl
  · rintro rfl
    exact .eps

theorem accepts_cls_iff (p : Char → Bool) (u : List Char) :
    Accepts (.cls p) u ↔ ∃ c, u = [c] ∧ p c = true := by
  constructor
  · intro h
    cases h with
    | cls hp => exact ⟨_, rfl, hp⟩
  · rintro ⟨c, rfl, hp⟩
    exact .cls hp

theorem accepts_cat_iff (a b : RE) (u : List Char) :
    Accepts (.cat a b) u ↔ ∃ x y, u = x ++ y ∧ Accepts a x ∧ Accepts b y := by
  constructor
  · intro h
    cases h with
    | cat h1 h2 => exact ⟨_, _, rfl, h1, h2⟩
  · rintro ⟨x, y, rfl, h1, h2⟩
    exact .cat h1 h2

theorem accepts_alt_iff (a b : RE) (u : List Char) :
    Accepts (.alt a b) u ↔ Accepts a u ∨ Accepts b u := by
  constructor
  · intro h
    cases h with
    | altL h => exact Or.inl h
    | altR h => exact Or.inr h
  · rintro (h | h)
    · exact .altL h
    · exact .altR h

theorem null_of_accepts_nil {r : RE} {u : List Char} (h : Accepts r u) :
    u = [] → null r = true := by
  induction h with
  | eps => intro; rfl
  | cls _ => intro h; cases h
  | cat h1 h2 ih1 ih2 =>
    intro h
    rcases List.append_eq_nil.mp h with ⟨ha, hb⟩
    simp [null, ih1 ha, ih2 hb]
  | altL h ih =>
    intro hu
    simp [null, ih hu]
  | altR h ih =>
    intro hu
    simp [null, ih hu]
  | starNil => intro; rfl
  | starCat h1 h2 ih1 ih2 => intro; rfl

theorem null_iff (r : RE) : null r = true ↔ Accepts r [] := by
  constructor
  · intro h
    induction r with
    | fail => simp [null] at h
    | eps => exact .eps
    | cls p => simp [null] at h
    | cat a b iha ihb =>
      simp only [null, Bool.and_eq_true] at h
      exact Accepts.cat (iha h.1) (ihb h.2)
    | alt a b iha ihb =>
      simp only [null, Bool.or_eq_true] at h
      rcases h with h | h
      · exact .altL (iha h)
      · exact .altR (ihb h)
    | star a ih => exact .starNil
  · intro h
    exact null_of_accepts_nil h rfl

theorem accepts_star_cons {a : RE} {c : Char} {u : List Char}
    (h : Accepts (.star a) (c :: u)) :
    ∃ x y, u = x ++ y ∧ Accepts a (c :: x) ∧ Accepts (.star a) y := by
  generalize hr : RE.star a = r at h
  generalize hs : c :: u = s at h
  induction h with
  | eps => cases hr
  | cls _ => cases hr
  | cat _ _ _ _ => cases hr
  | altL _ _ => cases hr
  | altR _ _ => cases hr
  | starNil => exact absurd hs (by simp)
  | starCat h1 h2 ih1 ih2 =>
    rename_i a0 x y
    injection hr with ha
    subst ha
    cases x with
    | nil =>
      exact ih2 rfl (by simpa using hs)
    | cons c' x' =>
      rw [List.cons_append] at hs
      injection hs with hc hu
      subst hc
      exact ⟨x', y, hu, h1, h2⟩

theorem accepts_cat_fail_left (b : RE) (u : List Char) :
    Accepts (.cat .fail b) u ↔ False := by
  rw [accepts_cat_iff]
  constructor
  · rintro ⟨x, y, rfl, hx, _⟩
    cases hx
  · exact False.elim

theorem accepts_cat_fail_right (a : RE) (u : List Char) :
    Accepts (.cat a .fail) u ↔ False := by
  rw [accepts_cat_iff]
  constructor
  · rintro ⟨x, y, rfl, _, hy⟩
    cases hy
  · exact False.elim

theorem accepts_cat_eps_left (b : RE) (u : List Char) :
    Accepts (.cat .eps b) u ↔ Accepts b u := by
  rw [accepts_cat_iff]
  constructor
  · rintro ⟨x, y, rfl, hx, hy⟩
    rw [accepts_eps_iff] at hx
    subst hx
    simpa using hy
  · intro h
    exact ⟨[], u, rfl, .eps, h⟩

theorem accepts_cat_eps_right (a : RE) (u : List Char) :
    Accepts (.cat a .eps) u ↔ Accepts a u := by
  rw [accepts_cat_iff]
  constructor
  · rintro ⟨x, y, rfl, hx, hy⟩
    rw [accepts_eps_iff] at hy
    subst hy
    simpa using hx
  · intro h
    exact ⟨u, [], (List.append_nil u).symm, h, .eps⟩

theorem accepts_scat (a b : RE) (u : List Char) :
    Accepts (scat a b) u ↔ Accepts (.cat a b) u := by
  cases a <;> cases b <;>
    simp only [scat] <;>
    simp [accepts_cat_fail_left, accepts_cat_fail_right, accepts_cat_eps_left,
      accepts_cat_eps_right, accepts_fail_iff, accepts_eps_iff]

theorem accepts_salt (a b : RE) (u : List Char) :
    Accepts (salt a b) u ↔ Accepts a u ∨ Accepts b u := by
  cases a <;> cases b <;>
    simp only [salt] <;>
    simp [accepts_alt_iff, accepts_fail_iff]

theorem accepts_deriv (r : RE) : ∀ (c : Char) (u : List Char),
    Accepts (deriv r c) u ↔ Accepts r (c :: u) := by
  induction r with
  | fail =>
    intro c u
    simp [deriv, accepts_fail_iff]
  | eps =>
    intro c u
    simp [deriv, accepts_fail_iff, accepts_eps_iff]
  | cls p =>
    intro c u
    simp only [deriv]
    split
    · rename_i hp
      rw [accepts_eps_iff, accepts_cls_iff]
      constructor
      · rintro rfl
        exact ⟨c, rfl, hp⟩
      · rintro ⟨c', he, hpc⟩
        rw [List.cons.injEq] at he
        exact he.2
    · rename_i hp
      rw [accepts_fail_iff, accepts_cls_iff]
      constructor
      · exact False.elim
      · rintro ⟨c', he, hp'⟩
        rw [List.cons.injEq] at he
        exact hp (he.1 ▸ hp')
  | cat a b iha ihb =>
    intro c u
    simp only [deriv]
    split
    · rename_i hna
      rw [accepts_salt, accepts_scat, accepts_cat_iff (deriv a c) b u,
        accepts_cat_iff a b (c :: u)]
      constructor
      · rintro (⟨x, y, rfl, hx, hy⟩ | h)
        · exact ⟨c :: x, y, rfl, (iha c x).mp hx, hy⟩
        · exact ⟨[], c :: u, rfl, (null_iff a).mp hna, (ihb c u).mp h⟩
      · rintro ⟨x, y, hxy, hx, hy⟩
        cases x with
        | nil =>
          right
          rw [List.nil_append] at hxy
          subst hxy
          exact (ihb c u).mpr hy
        | cons c' x' =>
          left
          rw [List.cons_append] at hxy
          injection hxy with hc hu
          subst hc
          exact ⟨x', y, hu, (iha c x').mpr hx, hy⟩
    · rename_i hna
      rw [accepts_scat, accepts_cat_iff (deriv a c) b u,
        accepts_cat_iff a b (c :: u)]
      constructor
      · rintro ⟨x, y, rfl, hx, hy⟩
        exact ⟨c :: x, y, rfl, (iha c x).mp hx, hy⟩
      · rintro ⟨x, y, hxy, hx, hy⟩
        cases x with
        | nil =>
          rw [List.nil_append] at hxy
          exact absurd ((null_iff a).mpr hx) hna
        | cons c' x' =>
          rw [List.cons_append] at hxy
          injection hxy with hc hu
          subst hc
          exact ⟨x', y, hu, (iha c x').mpr hx, hy⟩
  | alt a b iha ihb =>
    intro c u
    simp [deriv, accepts_salt, accepts_alt_iff, iha, ihb]
  | star a ih =>
    intro c u
    simp only [deriv]
    rw [accepts_scat, accepts_cat_iff (deriv a c) (.star a) u]
    constructor
    · rintro ⟨x, y, rfl, hx, hy⟩
      exact Accepts.starCat ((ih c x).mp hx) hy
    · intro h
      rcases accepts_star_cons h with ⟨x, y, rfl, hx, hy⟩
      exact ⟨x, y, rfl, (ih c x).mpr hx, hy⟩

theorem accepts_iff : ∀ (u : List Char) (r : RE),
    accepts r u = true ↔ Accepts r u := by
  intro u
  induction u with
  | nil =>
    intro r
    exact null_iff r
  | cons c rest ih =>
    intro r
    rw [show accepts r (c :: rest) = accepts (deriv r c) rest from rfl]
    rw [ih (deriv r c)]
    exact accepts_deriv r c rest

theorem maxMatch_le : ∀ (s : List Char) (r : RE) (n : Nat),
    maxMatch r s = some n → n ≤ s.length := by
  intro s
  induction s with
  | nil =>
    intro r n h
    simp only [maxMatch] at h
    split at h
    · injection h with h
      omega
    · exact Option.noConfusion h
  | cons c rest ih =>
    intro r n h
    cases hm : maxMatch (deriv r c) rest with
    | some m =>
      simp only [maxMatch, hm] at h
      injection h with h
      have := ih (deriv r c) m hm
      simp only [List.length_cons]
      omega
    | none =>
      simp only [maxMatch, hm] at h
      split at h
      · injection h with h
        simp only [List.length_cons]
        omega
      · exact Option.noConfusion h

theorem maxMatch_sound : ∀ (s : List Char) (r : RE) (n : Nat),
    maxMatch r s = some n → Accepts r (s.take n) := by
  intro s
  induction s with
  | nil =>
    intro r n h
    simp only [maxMatch] at h
    split at h
    · rename_i hn
      injection h with h
      subst h
      exact (null_iff r).mp hn
    · exact Option.noConfusion h
  | cons c rest ih =>
    intro r n h
    cases hm : maxMatch (deriv r c) rest with
    | some m =>
      simp only [maxMatch, hm] at h
      injection h with h
      rw [← h, List.take_succ_cons]
      exact (accepts_deriv r c (rest.take m)).mp (ih (deriv r c) m hm)
    | none =>
      simp only [maxMatch, hm] at h
      split at h
      · rename_i hn
        injection h with h
        subst h
        exact (null_iff r).mp hn
      · exact Option.noConfusion h

theorem maxMatch_none : ∀ (s : List Char) (r : RE),
    maxMatch r s = none → ∀ n, ¬ Accepts r (s.take n) := by
  intro s
  induction s with
  | nil =>
    intro r h n hacc
    simp only [maxMatch] at h
    split at h
    · exact Option.noConfusion h
    · rename_i hn
      rw [List.take_nil] at hacc
      exact hn ((null_iff r).mpr hacc)
  | cons c rest ih =>
    intro r h n hacc
    cases hm : maxMatch (deriv r c) rest with
    | some m =>
      simp only [maxMatch, hm] at h
      exact Option.noConfusion h
    | none =>
      simp only [maxMatch, hm] at h
      split at h
      · exact Option.noConfusion h
      · rename_i hn
        cases n with
        | zero =>
          rw [List.take_zero] at hacc
          exact hn ((null_iff r).mpr hacc)
        | succ n' =>
          rw [List.take_succ_cons] at hacc
          exact ih (deriv r c) hm n' ((accepts_deriv r c (rest.take n')).mpr hacc)

theorem maxMatch_ne_none : ∀ (s : List Char) (r : RE) (n : Nat),
    Accepts r (s.take n) → maxMatch r s ≠ none := by
  intro s r n hacc h
  exact maxMatch_none s r h n hacc

theorem accepts_not_mem {c : Char} : ∀ {r : RE} {u : List Char},
    clsexcl r c = true → Accepts r u → c ∉ u := by
  intro r u hx h
  induction h with
  | eps => simp
  | @cls p c' hp =>
    intro hmem
    rw [List.mem_singleton] at hmem
    subst hmem
    simp only [clsexcl, Bool.not_eq_eq_eq_not, Bool.not_true] at hx
    rw [hp] at hx
    cases hx
  | @cat a b x y h1 h2 ih1 ih2 =>
    simp only [clsexcl, Bool.and_eq_true] at hx
    intro hmem
    rcases List.mem_append.mp hmem with hm | hm
    · exact ih1 hx.1 hm
    · exact ih2 hx.2 hm
  | @altL a b x h ih =>
    simp only [clsexcl, Bool.and_eq_true] at hx
    exact ih hx.1
  | @altR a b x h ih =>
    simp only [clsexcl, Bool.and_eq_true] at hx
    exact ih hx.2
  | starNil => simp
  | @starCat a x y h1 h2 ih1 ih2 =>
    intro hmem
    rcases List.mem_append.mp hmem with hm | hm
    · exact ih1 (by simpa [clsexcl] using hx) hm
    · exact ih2 hx hm

theorem noMatchesIn_nil {r : RE} (hnull : null r = false) : NoMatchesIn r [] := by
  intro i
  simp [maxMatch, hnull]

theorem noMatchesIn_cons {r : RE} {c : Char} {t : List Char}
    (h0 : maxMatch r (c :: t) = none) (ht : NoMatchesIn r t) :
    NoMatchesIn r (c :: t) := by
  intro i
  cases i with
  | zero => simpa using h0
  | succ j => simpa using ht j

theorem noMatchesIn_drop {r : RE} {t : List Char} (h : NoMatchesIn r t) (m : Nat) :
    NoMatchesIn r (t.drop m) := by
  intro i
  rw [List.drop_drop]
  exact h _

theorem replList_eq : replList = '[' :: (redactedMid ++ [']']) := rfl

theorem noMatchesIn_repl_append {r : RE} (hcl : clsexcl r '[' = true)
    (hcr : clsexcl r ']' = true) (hnull : null r = false)
    (hred : ∀ i n : Nat, ¬ Accepts r ((redactedMid.drop i).take n))
    {X : List Char} (hX : NoMatchesIn r X) :
    NoMatchesIn r (replList ++ X) := by
  intro i
  by_cases hi : replList.length ≤ i
  · obtain ⟨j, rfl⟩ : ∃ j, i = replList.length + j := ⟨i - replList.length, by omega⟩
    rw [List.drop_append]
    exact hX j
  · rw [not_le] at hi
    rw [List.drop_append_of_le_length (by omega)]
    rcases ho : maxMatch r (replList.drop i ++ X) with _ | n
    · rfl
    · exfalso
      have hacc := maxMatch_sound _ r n ho
      have hnb1 : '[' ∉ (replList.drop i ++ X).take n := accepts_not_mem hcl hacc
      have hnb2 : ']' ∉ (replList.drop i ++ X).take n := accepts_not_mem hcr hacc
      cases i with
      | zero =>
        cases n with
        | zero =>
          rw [List.take_zero] at hacc
          exact absurd ((null_iff r).mpr hacc) (by simp [hnull])
        | succ n' =>
          apply hnb1
          rw [List.drop_zero, replList_eq, List.cons_append, List.take_succ_cons]
          exact List.mem_cons_self _ _
      | succ j =>
        have hlen : replList.length = 10 := rfl
        have hmid : redactedMid.length = 8 := rfl
        have hdrop : replList.drop (j + 1) = redactedMid.drop j ++ [']'] := by
          rw [replList_eq, List.drop_succ_cons, List.drop_append_of_le_length (by omega)]
        rw [hdrop, List.append_assoc, List.singleton_append] at hacc hnb2
        by_cases hn : n ≤ (redactedMid.drop j).length
        · apply hred j n
          rw [List.take_append_of_le_length hn] at hacc
          exact hacc
        · apply hnb2
          rw [not_le] at hn
          rw [List.take_append_eq_append_take]
          apply List.mem_append.mpr
          right
          obtain ⟨k, hk⟩ : ∃ k, n - (redactedMid.drop j).length = k + 1 :=
            ⟨n - (redactedMid.drop j).length - 1, by omega⟩
          rw [hk, List.take_succ_cons]
          exact List.mem_cons_self _ _

theorem reSubGo_copy (r : RE) :
    ∀ (fuel : Nat) (t : List Char), t.length ≤ fuel →
      ∀ u : List Char, '[' ∉ u → u <+: reSubGo r fuel t → u <+: t := by
  intro fuel
  induction fuel with
  | zero =>
    intro t ht u hnb hp
    simpa [reSubGo] using hp
  | succ fuel ih =>
    intro t ht u hnb hp
    cases t with
    | nil =>
      simpa [reSubGo] using hp
    | cons c rest =>
      have hrest : rest.length ≤ fuel := by
        simp only [List.length_cons] at ht
        omega
      cases hm : maxMatch r (c :: rest) with
      | none =>
        simp only [reSubGo, hm] at hp
        cases u with
        | nil => exact ⟨_, rfl⟩
        | cons x u' =>
          rcases hp with ⟨w, hw⟩
          rw [List.cons_append] at hw
          injection hw with hx hw'
          subst hx
          have hu' : u' <+: rest := ih rest hrest u'
            (fun hm' => hnb (List.mem_cons_of_mem _ hm')) ⟨w, hw'⟩
          rcases hu' with ⟨w', hw''⟩
          exact ⟨w', by rw [List.cons_append, hw'']⟩
      | some n =>
        cases n with
        | zero =>
          simp only [reSubGo, hm] at hp
          cases u with
          | nil => exact ⟨_, rfl⟩
          | cons x u' =>
            rcases hp with ⟨w, hw⟩
            rw [List.cons_append] at hw
            injection hw with hx hw'
            subst hx
            have hu' : u' <+: rest := ih rest hrest u'
              (fun hm' => hnb (List.mem_cons_of_mem _ hm')) ⟨w, hw'⟩
            rcases hu' with ⟨w', hw''⟩
            exact ⟨w', by rw [List.cons_append, hw'']⟩
        | succ n' =>
          simp only [reSubGo, hm] at hp
          cases u with
          | nil => exact ⟨_, rfl⟩
          | cons x u' =>
            exfalso
            apply hnb
            rcases hp with ⟨w, hw⟩
            rw [List.cons_append, replList_eq, List.cons_append] at hw
            injection hw with hx hw'
            rw [hx]
            exact List.mem_cons_self _ _

theorem reSubGo_no_self_matches {r : RE} (hcl : clsexcl r '[' = true)
    (hcr : clsexcl r ']' = true) (hnull : null r = false)
    (hred : ∀ i n : Nat, ¬ Accepts r ((redactedMid.drop i).take n)) :
    ∀ (fuel : Nat) (t : List Char), t.length ≤ fuel →
      NoMatchesIn r (reSubGo r fuel t) := by
  intro fuel
  induction fuel with
  | zero =>
    intro t ht
    have ht0 : t = [] := List.length_eq_zero.mp (by omega)
    subst ht0
    simpa [reSubGo] using noMatchesIn_nil hnull
  | succ fuel ih =>
    intro t ht
    cases t with
    | nil =>
      simpa [reSubGo] using noMatchesIn_nil hnull
    | cons c rest =>
      have hrest : rest.length ≤ fuel := by
        simp only [List.length_cons] at ht
        omega
      cases hm : maxMatch r (c :: rest) with
      | none =>
        simp only [reSubGo, hm]
        refine noMatchesIn_cons ?_ (ih rest hrest)
        rcases ho : maxMatch r (c :: reSubGo r fuel rest) with _ | n
        · rfl
        · exfalso
          have hacc := maxMatch_sound _ r n ho
          cases n with
          | zero =>
            rw [List.take_zero] at hacc
            exact absurd ((null_iff r).mpr hacc) (by simp [hnull])
          | succ n' =>
            rw [List.take_succ_cons] at hacc
            have hnb : '[' ∉ c :: (reSubGo r fuel rest).take n' :=
              accepts_not_mem hcl hacc
            have hcopy : (reSubGo r fuel rest).take n' <+: rest :=
              reSubGo_copy r fuel rest hrest _
                (fun hmem => hnb (List.mem_cons_of_mem _ hmem))
                (List.take_prefix _ _)
            have hpre : c :: (reSubGo r fuel rest).take n' <+: c :: rest := by
              rcases hcopy with ⟨w, hw⟩
              exact ⟨w, by rw [List.cons_append, hw]⟩
            have heq := List.prefix_iff_eq_take.mp hpre
            rw [heq] at hacc
            exact maxMatch_ne_none _ r _ hacc hm
      | some n =>
        cases n with
        | zero =>
          exfalso
          have hacc := maxMatch_sound _ r 0 hm
          rw [List.take_zero] at hacc
          exact absurd ((null_iff r).mpr hacc) (by simp [hnull])
        | succ n' =>
          simp only [reSubGo, hm]
          exact noMatchesIn_repl_append hcl hcr hnull hred
            (ih (rest.drop n') (by simp only [List.length_drop]; omega))

theorem reSubGo_preserve {r : RE} (hcl : clsexcl r '[' = true)
    (hcr : clsexcl r ']' = true) (hnull : null r = false)
    (hred : ∀ i n : Nat, ¬ Accepts r ((redactedMid.drop i).take n)) (q : RE) :
    ∀ (fuel : Nat) (t : List Char), t.length ≤ fuel → NoMatchesIn r t →
      NoMatchesIn r (reSubGo q fuel t) := by
  intro fuel
  induction fuel with
  | zero =>
    intro t ht hnm
    have ht0 : t = [] := List.length_eq_zero.mp (by omega)
    subst ht0
    simpa [reSubGo] using hnm
  | succ fuel ih =>
    intro t ht hnm
    cases t with
    | nil =>
      simpa [reSubGo] using hnm
    | cons c rest =>
      have hrest : rest.length ≤ fuel := by
        simp only [List.length_cons] at ht
        omega
      have hnmrest : NoMatchesIn r rest := by
        have := noMatchesIn_drop hnm 1
        simpa using this
      have hcase : ∀ hq : Unit,
          NoMatchesIn r (c :: reSubGo q fuel rest) := by
        intro _
        refine noMatchesIn_cons ?_ (ih rest hrest hnmrest)
        rcases ho : maxMatch r (c :: reSubGo q fuel rest) with _ | n
        · rfl
        · exfalso
          have hacc := maxMatch_sound _ r n ho
          cases n with
          | zero =>
            rw [List.take_zero] at hacc
            exact absurd ((null_iff r).mpr hacc) (by simp [hnull])
          | succ n' =>
            rw [List.take_succ_cons] at hacc
            have hnb : '[' ∉ c :: (reSubGo q fuel rest).take n' :=
              accepts_not_mem hcl hacc
            have hcopy : (reSubGo q fuel rest).take n' <+: rest :=
              reSubGo_copy q fuel rest hrest _
                (fun hmem => hnb (List.mem_cons_of_mem _ hmem))
                (List.take_prefix _ _)
            have hpre : c :: (reSubGo q fuel rest).take n' <+: c :: rest := by
              rcases hcopy with ⟨w, hw⟩
              exact ⟨w, by rw [List.cons_append, hw]⟩
            have heq := List.prefix_iff_eq_take.mp hpre
            rw [heq] at hacc
            have h0 : maxMatch r (c :: rest) = none := by
              simpa using hnm 0
            exact maxMatch_ne_none _ r _ hacc h0
      cases hmq : maxMatch q (c :: rest) with
      | none =>
        simp only [reSubGo, hmq]
        exact hcase ()
      | some n =>
        cases n with
        | zero =>
          simp only [reSubGo, hmq]
          exact hcase ()
        | succ n' =>
          simp only [reSubGo, hmq]
          refine noMatchesIn_repl_append hcl hcr hnull hred
            (ih (rest.drop n') (by simp only [List.length_drop]; omega) ?_)
          have := noMatchesIn_drop hnm (n' + 1)
          simpa using this

theorem reSubGo_id {r : RE} :
    ∀ (fuel : Nat) (t : List Char), t.length ≤ fuel → NoMatchesIn r t →
      reSubGo r fuel t = t := by
  intro fuel
  induction fuel with
  | zero =>
    intro t _ _
    rfl
  | succ fuel ih =>
    intro t ht hnm
    cases t with
    | nil => rfl
    | cons c rest =>
      have h0 : maxMatch r (c :: rest) = none := by
        simpa using hnm 0
      simp only [reSubGo, h0]
      rw [ih rest (by simp only [List.length_cons] at ht; omega)
        (by simpa using noMatchesIn_drop hnm 1)]

theorem GoodPat.redfree {r : RE} (hg : GoodPat r) :
    ∀ i n : Nat, ¬ Accepts r ((redactedMid.drop i).take n) := by
  intro i n hacc
  have ht : redactedMid.drop i ∈ redactedMid.tails := by
    rw [List.mem_tails]
    exact List.drop_suffix i redactedMid
  have hu : (redactedMid.drop i).take n ∈ (redactedMid.drop i).inits := by
    rw [List.mem_inits]
    exact List.take_prefix n _
  have hfalse := hg.2.2.2 _ ht _ hu
  exact absurd ((accepts_iff _ r).mpr hacc) (by simp [hfalse])

theorem applyAll_preserve {r : RE} (hg : GoodPat r) :
    ∀ (qs : List RE) (t : List Char), NoMatchesIn r t →
      NoMatchesIn r (applyAll qs t) := by
  intro qs
  induction qs with
  | nil =>
    intro t h
    exact h
  | cons q rest ih =>
    intro t h
    exact ih (reSub q t)
      (reSubGo_preserve hg.1 hg.2.1 hg.2.2.1 hg.redfree q t.length t
        (Nat.le_refl _) h)

theorem applyAll_no_matches :
    ∀ (ps : List RE), (∀ p ∈ ps, GoodPat p) → ∀ (s : List Char), ∀ r ∈ ps,
      NoMatchesIn r (applyAll ps s) := by
  intro ps
  induction ps with
  | nil =>
    intro _ s r h
    cases h
  | cons p rest ih =>
    intro hps s r hr
    rcases List.mem_cons.mp hr with rfl | hr'
    · have hg := hps r (List.mem_cons_self _ _)
      have h1 : NoMatchesIn r (reSub r s) :=
        reSubGo_no_self_matches hg.1 hg.2.1 hg.2.2.1 hg.redfree s.length s
          (Nat.le_refl _)
      exact applyAll_preserve hg rest (reSub r s) h1
    · exact ih (fun q hq => hps q (List.mem_cons_of_mem _ hq)) (reSub p s) r hr'

theorem applyAll_id : ∀ (ps : List RE) (t : List Char),
    (∀ p ∈ ps, NoMatchesIn p t) → applyAll ps t = t := by
  intro ps
  induction ps with
  | nil =>
    intro t _
    rfl
  | cons p rest ih =>
    intro t h
    show applyAll rest (reSub p t) = t
    rw [show reSub p t = t from
      reSubGo_id t.length t (Nat.le_refl _) (h p (List.mem_cons_self _ _))]
    exact ih t fun q hq => h q (List.mem_cons_of_mem _ hq)

theorem hasMatchIn_false_no_infix {r : RE} {t : List Char}
    (h : hasMatchIn r t = false) : ∀ u, u <:+: t → ¬ Accepts r u := by
  intro u hinf hacc
  rcases hinf with ⟨s, w, hsw⟩
  have hlen : s.length + u.length + w.length = t.length := by
    rw [← hsw]
    simp
    omega
  unfold hasMatchIn at h
  rw [List.any_eq_false] at h
  have hi := h s.length (by rw [List.mem_range]; omega)
  have hdrop : t.drop s.length = u ++ w := by
    rw [← hsw, List.append_assoc, List.drop_left]
  have hne := maxMatch_ne_none (t.drop s.length) r u.length (by
    rw [hdrop, List.take_left]
    exact hacc)
  exact hne (Option.not_isSome_iff_eq_none.mp (by simpa using hi))

theorem goodPat_pattern1 : GoodPat pattern1 :=
  ⟨by decide, by decide, by decide, by decide⟩

theorem goodPat_pattern2 : GoodPat pattern2 :=
  ⟨by decide, by decide, by decide, by decide⟩

theorem goodPat_pattern3 : GoodPat pattern3 :=
  ⟨by decide, by decide, by decide, by decide⟩

theorem goodPat_pattern4 : GoodPat pattern4 :=
  ⟨by decide, by decide, by decide, by decide⟩

theorem goodPat_all : ∀ p ∈ redactPatterns, GoodPat p := by
  intro p hp
  rcases List.mem_cons.mp hp with rfl | hp
  · exact goodPat_pattern1
  rcases List.mem_cons.mp hp with rfl | hp
  · exact goodPat_pattern2
  rcases List.mem_cons.mp hp with rfl | hp
  · exact goodPat_pattern3
  rcases List.mem_cons.mp hp with rfl | hp
  · exact goodPat_pattern4
  cases hp

end Re

end ReLemmas

section RedactorTheorems

/-- C6: RedactorAgent.redact under the default security configuration is
idempotent on whole chunks, and the chunk holding the secret-shaped
assignment redacts to content in which no substring is matched by any of the
four configured redaction patterns. -/
theorem C6_redact_idempotent :
    (∀ chunk : Chunker.CodeChunk,
        RedactorAgent.redact defaultSecurityConfig
          (RedactorAgent.redact defaultSecurityConfig chunk) =
        RedactorAgent.redact defaultSecurityConfig chunk)
    ∧ ∀ p ∈ Re.redactPatterns, ∀ u : List Char,
        u <:+: (RedactorAgent.redact defaultSecurityConfig chunkSecret).content →
          ¬ Re.Accepts p u := by
  constructor
  · intro chunk
    unfold RedactorAgent.redact
    rw [if_neg (by simp [defaultSecurityConfig, Re.redactPatterns])]
    rw [if_neg (by simp [defaultSecurityConfig, Re.redactPatterns])]
    have hcontent : Re.applyAll defaultSecurityConfig.redact_patterns
        (Re.applyAll defaultSecurityConfig.redact_patterns chunk.content) =
        Re.applyAll defaultSecurityConfig.redact_patterns chunk.content := by
      apply Re.applyAll_id
      intro p hp
      exact Re.applyAll_no_matches _ Re.goodPat_all chunk.content p hp
    simp only [hcontent, dictInsert_idem]
  · intro p hp u hinf hacc
    have hfalse : Re.hasMatchIn p
        (RedactorAgent.redact defaultSecurityConfig chunkSecret).content = false := by
      simp only [Re.redactPatterns, List.mem_cons, List.not_mem_nil, or_false] at hp
      rcases hp with rfl | rfl | rfl | rfl <;> decide
    exact Re.hasMatchIn_false_no_infix hfalse u hinf hacc

/-- C7: with redaction configured on (secrets flag set and a non-empty
pattern list, as in the default configuration), redact returns a chunk whose
provenance and every other field except content and metadata are exactly the
input's, and whose metadata is the input metadata extended with
redacted: true. -/
theorem C7_redact_frame (cfg : SecurityConfig) (chunk : Chunker.CodeChunk)
    (h1 : cfg.redact_secrets = true) (h2 : cfg.redact_patterns ≠ []) :
    (RedactorAgent.redact cfg chunk).provenance = chunk.provenance
    ∧ (RedactorAgent.redact cfg chunk).chunk_id = chunk.chunk_id
    ∧ (RedactorAgent.redact cfg chunk).file_path = chunk.file_path
    ∧ (RedactorAgent.redact cfg chunk).start_line = chunk.start_line
    ∧ (RedactorAgent.redact cfg chunk).end_line = chunk.end_line
    ∧ (RedactorAgent.redact cfg chunk).token_count = chunk.token_count
    ∧ (RedactorAgent.redact cfg chunk).chunk_type = chunk.chunk_type
    ∧ (RedactorAgent.redact cfg chunk).language = chunk.language
    ∧ (RedactorAgent.redact cfg chunk).metadata =
        dictInsert "redacted" (.boolv true) chunk.metadata := by
  have hguard : ¬(cfg.redact_secrets = false ∨ cfg.redact_patterns.isEmpty) := by
    rw [h1]
    simp [List.isEmpty_iff, h2]
  unfold RedactorAgent.redact
  rw [if_neg hguard]
  exact ⟨rfl, rfl, rfl, rfl, rfl, rfl, rfl, rfl, rfl⟩

theorem C7_redact_frame_witness :
    (RedactorAgent.redact defaultSecurityConfig chunkSecret).provenance =
        chunkSecret.provenance
    ∧ (RedactorAgent.redact defaultSecurityConfig chunkSecret).chunk_id =
        chunkSecret.chunk_id
    ∧ (RedactorAgent.redact defaultSecurityConfig chunkSecret).file_path =
        chunkSecret.file_path
    ∧ (RedactorAgent.redact defaultSecurityConfig chunkSecret).start_line =
        chunkSecret.start_line
    ∧ (RedactorAgent.redact defaultSecurityConfig chunkSecret).end_line =
        chunkSecret.end_line
    ∧ (RedactorAgent.redact defaultSecurityConfig chunkSecret).token_count =
        chunkSecret.token_count
    ∧ (RedactorAgent.redact defaultSecurityConfig chunkSecret).chunk_type =
        chunkSecret.chunk_type
    ∧ (RedactorAgent.redact defaultSecurityConfig chunkSecret).language =
        chunkSecret.language
    ∧ (RedactorAgent.redact defaultSecurityConfig chunkSecret).metadata =
        dictInsert "redacted" (.boolv true) chunkSecret.metadata :=
  C7_redact_frame defaultSecurityConfig chunkSecret rfl
    (by simp [defaultSecurityConfig, Re.redactPatterns])

end RedactorTheorems

end FrontendScanner
